import Mathlib

/-!
# Verification of the FBoxLib coalescing arena (`CArena`)

Shallow embedding of `Src/BaseLib/BL_CArena.H` and of the allocate /
release algorithms of the coalescing memory arena.  Addresses and sizes
are modelled as `Nat`; the two `std::set<Node>` containers (`m_freelist`,
`m_busylist`) are modelled as lists kept in strictly ascending order of
block address, with `std::set::insert` semantics (an insertion whose key
already occurs leaves the set unchanged).  The platform memory provider
(`::operator new`) is modelled as handing out a fresh span lying strictly
beyond every address previously issued, with a one-byte gap, recorded by
the `next` cursor of the state.
-/

namespace CArenaModel

/-- The node of the free list and busy list: a block descriptor
`(m_block, m_size)` — from `CArena::Node` in `BL_CArena.H`. -/
structure Node where
  block : Nat
  size : Nat
deriving Repr, DecidableEq

/-- `Node::operator<` from `BL_CArena.H`: comparison by block address only. -/
def Node.ltb (a b : Node) : Bool := a.block < b.block

/-- `Node::operator==` from `BL_CArena.H`: equality by block address only. -/
def Node.eqb (a b : Node) : Bool := a.block == b.block

/-- The half-open byte range `[n.block, n.block + n.size)` of a descriptor. -/
def inRange (n : Node) (x : Nat) : Prop := n.block ≤ x ∧ x < n.block + n.size

instance (n : Node) (x : Nat) : Decidable (inRange n x) :=
  inferInstanceAs (Decidable (n.block ≤ x ∧ x < n.block + n.size))

/-- A byte `x` is covered by some descriptor of the list `l`. -/
def covered (l : List Node) (x : Nat) : Prop := ∃ n ∈ l, inRange n x

instance (l : List Node) (x : Nat) : Decidable (covered l x) :=
  inferInstanceAs (Decidable (∃ n ∈ l, inRange n x))

/-- `std::set<Node>::insert` on the sorted-list model: walk to the ordered
position; if a node with the same block address is already present the set
is left unchanged (the incoming node is discarded). -/
def insertNL : List Node → Node → List Node
  | [], n => [n]
  | m :: rest, n =>
    if n.block < m.block then n :: m :: rest
    else if m.block < n.block then m :: insertNL rest n
    else m :: rest

/-- `std::set<Node>::find` keyed by block address (the set's ordering
compares only `m_block`). -/
def lookupBlk : List Node → Nat → Option Node
  | [], _ => none
  | n :: rest, a => if n.block = a then some n else lookupBlk rest a

/-- `std::set<Node>::erase` of the element whose block address is `a`. -/
def eraseBlk : List Node → Nat → List Node
  | [], _ => []
  | n :: rest, a => if n.block = a then rest else n :: eraseBlk rest a

/-- The free-set entry immediately preceding address `a`: on a sorted list,
the last element whose block address is `< a` (`std::set` predecessor). -/
def predOf : List Node → Nat → Option Node
  | [], _ => none
  | n :: rest, a =>
    if n.block < a then
      match predOf rest a with
      | none => some n
      | some m => some m
    else none

/-- The free-set entry immediately following address `a`: on a sorted list,
the first element whose block address is `> a` (`std::set` successor). -/
def succOf : List Node → Nat → Option Node
  | [], _ => none
  | n :: rest, a => if a < n.block then some n else succOf rest a

/-- Modelled from the spec: the first-fit search of `CArena::alloc`
(whose definition `BL_CArena.cpp` is not in the sources) — scan the free
set in ascending address order for the first block of size `≥ nbytes`;
remove it, and when it is strictly larger reinsert the high remainder as
a new free range starting right after the returned block.  Returns the
chosen start address and the updated free list, or `none` when no block
fits. -/
def fitAlloc : List Node → Nat → Option (Nat × List Node)
  | [], _ => none
  | n :: rest, nb =>
    if nb ≤ n.size then
      some (n.block,
        if nb < n.size then insertNL rest ⟨n.block + nb, n.size - nb⟩ else rest)
    else
      match fitAlloc rest nb with
      | none => none
      | some (a, l') => some (a, n :: l')

/-- The state of a `CArena`: hunk registry `m_alloc`, free list, busy
list, hunk quantum `m_hunk`, accounting counter `m_used`, plus the `next`
cursor of the platform-provider model (all platform memory ever issued
lies strictly below `next`). -/
structure CArena where
  m_alloc : List Node
  m_freelist : List Node
  m_busylist : List Node
  m_hunk : Nat
  m_used : Nat
  next : Nat
deriving Repr, DecidableEq

/-- `CArena::DefaultHunkSize` from `BL_CArena.H`. -/
def DefaultHunkSize : Nat := 1024 * 1024 * 8

/-- The constructor `CArena::CArena(size_t hunk_size)`: empty lists, zero
accounting; `hunk_size == 0` selects `DefaultHunkSize`.  `origin` seeds the
platform-provider cursor. -/
def mkCArena (hunk_size : Nat) (origin : Nat) : CArena :=
  { m_alloc := []
    m_freelist := []
    m_busylist := []
    m_hunk := if hunk_size = 0 then DefaultHunkSize else hunk_size
    m_used := 0
    next := origin }

/-- Modelled from the spec: `CArena::alloc` (its body `BL_CArena.cpp` is
not in the sources).  First-fit from the free set; on failure acquire one
hunk of size `max nbytes m_hunk` from the platform, record it in the hunk
registry, add its full extent to the free set, add its size to `m_used`,
and retry (the retry always succeeds; the final fallback branch is dead
code needed only for totality).  Returns the new state and the address of
the allocated block, which is inserted into the busy set. -/
def CArena.alloc (st : CArena) (nbytes : Nat) : CArena × Nat :=
  match fitAlloc st.m_freelist nbytes with
  | some (a, fl') =>
    ({ st with m_freelist := fl',
               m_busylist := insertNL st.m_busylist ⟨a, nbytes⟩ }, a)
  | none =>
    match fitAlloc (insertNL st.m_freelist ⟨st.next, max nbytes st.m_hunk⟩)
        nbytes with
    | some (b, fl') =>
      ({ st with
          m_alloc := st.m_alloc ++ [⟨st.next, max nbytes st.m_hunk⟩]
          m_freelist := fl'
          m_busylist := insertNL st.m_busylist ⟨b, nbytes⟩
          m_used := st.m_used + max nbytes st.m_hunk
          next := st.next + max nbytes st.m_hunk + 1 }, b)
    | none =>
      ({ st with
          m_alloc := st.m_alloc ++ [⟨st.next, max nbytes st.m_hunk⟩]
          m_freelist := insertNL st.m_freelist ⟨st.next, max nbytes st.m_hunk⟩
          m_used := st.m_used + max nbytes st.m_hunk
          next := st.next + max nbytes st.m_hunk + 1 }, st.next)

/-- Modelled from the spec: `CArena::free` (its body `BL_CArena.cpp` is
not in the sources).  Look up the block by its start address in the busy
set — absence is a contract violation, modelled as `none` (the design
aborts, leaving both sets untouched).  Otherwise remove it, merge it with
the free-set predecessor whose end address equals its start, then with
the successor whose start address equals the merged end, and insert the
merged range into the free set.  `freeFinish` is the second half of the
release: merge the block `(blk, sz)` with the free-set successor whose
start address equals the merged end, then insert the result. -/
def freeFinish (st : CArena) (a blk sz : Nat) (fl1 : List Node) : CArena :=
  match succOf fl1 blk with
  | some q =>
    if q.block = blk + sz then
      { st with m_busylist := eraseBlk st.m_busylist a,
                m_freelist := insertNL (eraseBlk fl1 q.block) ⟨blk, sz + q.size⟩ }
    else
      { st with m_busylist := eraseBlk st.m_busylist a,
                m_freelist := insertNL fl1 ⟨blk, sz⟩ }
  | none =>
    { st with m_busylist := eraseBlk st.m_busylist a,
              m_freelist := insertNL fl1 ⟨blk, sz⟩ }

/-- Modelled from the spec: `CArena::free` proper — look up the block by
its start address in the busy set (absence is the contract violation,
`none`), merge with the predecessor whose end address equals the block's
start, and hand over to `freeFinish` for the successor merge. -/
def CArena.free (st : CArena) (a : Nat) : Option CArena :=
  match lookupBlk st.m_busylist a with
  | none => none
  | some n =>
    match predOf st.m_freelist a with
    | some p =>
      if p.block + p.size = n.block then
        some (freeFinish st a p.block (p.size + n.size)
          (eraseBlk st.m_freelist p.block))
      else some (freeFinish st a n.block n.size st.m_freelist)
    | none => some (freeFinish st a n.block n.size st.m_freelist)

/-- `CArena::heap_space_used`: returns `m_used`. -/
def CArena.heap_space_used (st : CArena) : Nat := st.m_used

/-- One observable operation of the arena: an allocation of a positive
size, or a successful release. -/
def Step (st st' : CArena) : Prop :=
  (∃ n, 0 < n ∧ st' = (st.alloc n).1) ∨ (∃ a, st.free a = some st')

/-- The states reachable from a freshly constructed arena by finite
sequences of `alloc` (positive sizes, per the precondition) and
successful `free` calls. -/
inductive Reach : CArena → Prop
  | init (hunk_size origin : Nat) : Reach (mkCArena hunk_size origin)
  | alloc (st : CArena) (n : Nat) : Reach st → 0 < n → Reach (st.alloc n).1
  | free (st st' : CArena) (a : Nat) :
      Reach st → st.free a = some st' → Reach st'

end CArenaModel

namespace CArenaModel

/-! ## Ordering relations on descriptors -/

/-- Strict address order on descriptors (the `std::set` ordering). -/
def Bord (m n : Node) : Prop := m.block < n.block

/-- Free-list gap order: `m` ends strictly before `n` starts (disjoint and
non-adjacent). -/
def Rgap (m n : Node) : Prop := m.block + m.size < n.block

/-- Busy-list order: `m` ends at or before the start of `n` (disjoint,
possibly adjacent). -/
def Sle (m n : Node) : Prop := m.block + m.size ≤ n.block

instance : IsTrans Node Bord := ⟨fun _ _ _ h1 h2 => Nat.lt_trans h1 h2⟩

instance (m n : Node) : Decidable (Bord m n) :=
  inferInstanceAs (Decidable (m.block < n.block))

instance (m n : Node) : Decidable (Rgap m n) :=
  inferInstanceAs (Decidable (m.block + m.size < n.block))

instance (m n : Node) : Decidable (Sle m n) :=
  inferInstanceAs (Decidable (m.block + m.size ≤ n.block))

instance : IsTrans Node Rgap :=
  ⟨fun a b c h1 h2 => by unfold Rgap at *; omega⟩

instance : IsTrans Node Sle :=
  ⟨fun a b c h1 h2 => by unfold Sle at *; omega⟩

theorem Rgap.to_sle {m n : Node} (h : Rgap m n) : Sle m n := Nat.le_of_lt h

theorem Rgap.to_bord {m n : Node} (h : Rgap m n) : Bord m n := by
  unfold Rgap at h; unfold Bord; omega

theorem Sle.disj {m n : Node} (h : Sle m n) (x : Nat) :
    ¬ (inRange m x ∧ inRange n x) := by
  unfold Sle at h; unfold inRange; omega

/-- Two descriptors separated inside a `Sle`-sorted list have disjoint byte
ranges. -/
theorem mid_disjoint {l₁ l₂ : List Node} {n m : Node}
    (h : List.Pairwise Sle (l₁ ++ n :: l₂)) (hm : m ∈ l₁ ++ l₂) (x : Nat)
    (hx : inRange n x) : ¬ inRange m x := by
  rcases List.mem_append.1 hm with h1 | h2
  · have := (List.pairwise_append.1 h).2.2 m h1 n (List.mem_cons_self _ _)
    exact fun hmx => this.disj x ⟨hmx, hx⟩
  · have := (List.pairwise_cons.1 (List.pairwise_append.1 h).2.1).1 m h2
    exact fun hmx => this.disj x ⟨hx, hmx⟩

/-! ## One-step equation lemmas -/

theorem insertNL_cons (m : Node) (rest : List Node) (n : Node) :
    insertNL (m :: rest) n =
      if n.block < m.block then n :: m :: rest
      else if m.block < n.block then m :: insertNL rest n
      else m :: rest := rfl

theorem lookupBlk_cons (n : Node) (rest : List Node) (a : Nat) :
    lookupBlk (n :: rest) a =
      if n.block = a then some n else lookupBlk rest a := rfl

theorem eraseBlk_cons (n : Node) (rest : List Node) (a : Nat) :
    eraseBlk (n :: rest) a =
      if n.block = a then rest else n :: eraseBlk rest a := rfl

theorem predOf_cons (n : Node) (rest : List Node) (a : Nat) :
    predOf (n :: rest) a =
      if n.block < a then
        match predOf rest a with
        | none => some n
        | some m => some m
      else none := rfl

theorem succOf_cons (n : Node) (rest : List Node) (a : Nat) :
    succOf (n :: rest) a =
      if a < n.block then some n else succOf rest a := rfl

theorem fitAlloc_cons (n : Node) (rest : List Node) (nb : Nat) :
    fitAlloc (n :: rest) nb =
      if nb ≤ n.size then
        some (n.block,
          if nb < n.size then insertNL rest ⟨n.block + nb, n.size - nb⟩ else rest)
      else
        match fitAlloc rest nb with
        | none => none
        | some (a, l') => some (a, n :: l') := rfl

/-! ## Lemmas about `insertNL` -/

theorem insertNL_perm (l : List Node) (n : Node)
    (h : ∀ m ∈ l, m.block ≠ n.block) : (insertNL l n).Perm (n :: l) := by
  induction l with
  | nil => simp [insertNL]
  | cons m rest ih =>
    unfold insertNL
    rcases Nat.lt_trichotomy n.block m.block with hlt | heq | hgt
    · rw [if_pos hlt]
    · exact absurd heq.symm (h m (List.mem_cons_self _ _))
    · rw [if_neg (by omega), if_pos hgt]
      exact ((ih fun k hk => h k (List.mem_cons_of_mem _ hk)).cons m).trans
        (List.Perm.swap n m rest)

theorem mem_insertNL {l : List Node} {n : Node}
    (h : ∀ m ∈ l, m.block ≠ n.block) (k : Node) :
    k ∈ insertNL l n ↔ k = n ∨ k ∈ l := by
  rw [(insertNL_perm l n h).mem_iff, List.mem_cons]

theorem covered_insertNL {l : List Node} {n : Node}
    (h : ∀ m ∈ l, m.block ≠ n.block) (x : Nat) :
    covered (insertNL l n) x ↔ inRange n x ∨ covered l x := by
  unfold covered
  constructor
  · rintro ⟨k, hk, hkx⟩
    rcases (mem_insertNL h k).1 hk with rfl | hk'
    · exact Or.inl hkx
    · exact Or.inr ⟨k, hk', hkx⟩
  · rintro (hx | ⟨k, hk, hkx⟩)
    · exact ⟨n, (mem_insertNL h n).2 (Or.inl rfl), hx⟩
    · exact ⟨k, (mem_insertNL h k).2 (Or.inr hk), hkx⟩

/-- Inserting past every element appends at the tail. -/
theorem insertNL_append_last {l : List Node} {n : Node}
    (h : ∀ m ∈ l, m.block < n.block) : insertNL l n = l ++ [n] := by
  induction l with
  | nil => rfl
  | cons m rest ih =>
    have hm := h m (List.mem_cons_self _ _)
    unfold insertNL
    rw [if_neg (by omega), if_pos hm,
      ih fun k hk => h k (List.mem_cons_of_mem _ hk)]
    rfl

/-- Inserting between a lower part and an upper part lands in the middle. -/
theorem insertNL_middle {l₁ l₂ : List Node} {n : Node}
    (h₁ : ∀ m ∈ l₁, m.block < n.block) (h₂ : ∀ m ∈ l₂, n.block < m.block) :
    insertNL (l₁ ++ l₂) n = l₁ ++ n :: l₂ := by
  induction l₁ with
  | nil =>
    cases l₂ with
    | nil => rfl
    | cons q rest =>
      show insertNL (q :: rest) n = n :: q :: rest
      unfold insertNL
      rw [if_pos (h₂ q (List.mem_cons_self _ _))]
  | cons m rest ih =>
    have hm := h₁ m (List.mem_cons_self _ _)
    show insertNL (m :: (rest ++ l₂)) n = m :: (rest ++ n :: l₂)
    unfold insertNL
    rw [if_neg (by omega), if_pos hm,
      ih fun k hk => h₁ k (List.mem_cons_of_mem _ hk)]

/-- Inserting below every element prepends at the head. -/
theorem insertNL_front {l : List Node} {n : Node}
    (h : ∀ m ∈ l, n.block < m.block) : insertNL l n = n :: l := by
  simpa using @insertNL_middle [] l n (by simp) h

/-- `std::set::insert` with an already-present key is a no-op (on a list
sorted by address). -/
theorem insertNL_dup {l : List Node} {n : Node}
    (hs : List.Chain' Bord l) (h : n.block ∈ l.map Node.block) :
    insertNL l n = l := by
  induction l with
  | nil => simp at h
  | cons m rest ih =>
    rcases List.mem_map.1 h with ⟨k, hk, hkb⟩
    rcases List.mem_cons.1 hk with rfl | hk'
    · unfold insertNL
      rw [if_neg (by omega), if_neg (by omega)]
    · have hmk : m.block < k.block := by
        have := List.chain'_iff_pairwise.1 hs
        exact (List.pairwise_cons.1 this).1 k hk'
      unfold insertNL
      rw [if_neg (by omega), if_pos (by omega),
        ih (hs.sublist (List.sublist_cons_self m rest))
          (List.mem_map.2 ⟨k, hk', hkb⟩)]

theorem sum_insertNL {l : List Node} {n : Node}
    (h : ∀ m ∈ l, m.block ≠ n.block) :
    ((insertNL l n).map Node.size).sum = n.size + (l.map Node.size).sum := by
  have := (insertNL_perm l n h).map Node.size
  rw [this.sum_eq]; rfl

/-! ## Lemmas about `lookupBlk` and `eraseBlk` -/

theorem lookupBlk_eq_none {l : List Node} {a : Nat} :
    lookupBlk l a = none ↔ ∀ m ∈ l, m.block ≠ a := by
  induction l with
  | nil => simp [lookupBlk]
  | cons m rest ih =>
    unfold lookupBlk
    by_cases hm : m.block = a
    · simp [hm]
    · rw [if_neg hm, ih]
      constructor
      · rintro h k hk
        rcases List.mem_cons.1 hk with rfl | hk'
        · exact hm
        · exact h k hk'
      · intro h k hk; exact h k (List.mem_cons_of_mem _ hk)

/-- A successful lookup splits the list at the found node and identifies
the result of `eraseBlk`. -/
theorem lookupBlk_split {l : List Node} {a : Nat} {n : Node}
    (h : lookupBlk l a = some n) :
    n.block = a ∧ ∃ l₁ l₂, l = l₁ ++ n :: l₂ ∧ (∀ m ∈ l₁, m.block ≠ a) ∧
      eraseBlk l a = l₁ ++ l₂ := by
  induction l with
  | nil => simp [lookupBlk] at h
  | cons m rest ih =>
    unfold lookupBlk at h
    by_cases hm : m.block = a
    · rw [if_pos hm] at h
      cases h
      exact ⟨hm, [], rest, by simp, by simp,
        by rw [eraseBlk_cons, if_pos hm]; simp⟩
    · rw [if_neg hm] at h
      obtain ⟨hna, l₁, l₂, hl, hl₁, he⟩ := ih h
      refine ⟨hna, m :: l₁, l₂, by rw [hl]; rfl, ?_, ?_⟩
      · intro k hk
        rcases List.mem_cons.1 hk with rfl | hk'
        · exact hm
        · exact hl₁ k hk'
      · unfold eraseBlk
        rw [if_neg hm, he]; rfl

theorem eraseBlk_append_left {l₁ l₂ : List Node} {a : Nat}
    (h : ∀ m ∈ l₁, m.block ≠ a) :
    eraseBlk (l₁ ++ l₂) a = l₁ ++ eraseBlk l₂ a := by
  induction l₁ with
  | nil => rfl
  | cons m rest ih =>
    show eraseBlk (m :: (rest ++ l₂)) a = m :: (rest ++ eraseBlk l₂ a)
    rw [eraseBlk_cons, if_neg (h m (List.mem_cons_self _ _)),
      ih fun k hk => h k (List.mem_cons_of_mem _ hk)]

theorem eraseBlk_cons_self {l : List Node} {n : Node} {a : Nat}
    (h : n.block = a) : eraseBlk (n :: l) a = l := by
  unfold eraseBlk; rw [if_pos h]

/-! ## Lemmas about `predOf` and `succOf` -/

theorem predOf_append {l₁ l₂ : List Node} {a : Nat}
    (h₁ : ∀ m ∈ l₁, m.block < a) (h₂ : ∀ m ∈ l₂, ¬ m.block < a) :
    predOf (l₁ ++ l₂) a = l₁.getLast? := by
  induction l₁ with
  | nil =>
    cases l₂ with
    | nil => rfl
    | cons q rest =>
      show predOf (q :: rest) a = none
      unfold predOf
      rw [if_neg (h₂ q (List.mem_cons_self _ _))]
  | cons m rest ih =>
    show predOf (m :: (rest ++ l₂)) a = _
    unfold predOf
    rw [if_pos (h₁ m (List.mem_cons_self _ _)),
      ih fun k hk => h₁ k (List.mem_cons_of_mem _ hk)]
    cases rest with
    | nil => rfl
    | cons r rest' =>
      rw [List.getLast?_cons_cons]
      cases hgl : (r :: rest').getLast? with
      | none => exact absurd (List.getLast?_eq_none_iff.1 hgl) (by simp)
      | some x => rfl

theorem succOf_append {l₁ l₂ : List Node} {a : Nat}
    (h₁ : ∀ m ∈ l₁, ¬ a < m.block) :
    succOf (l₁ ++ l₂) a = succOf l₂ a := by
  induction l₁ with
  | nil => rfl
  | cons m rest ih =>
    show succOf (m :: (rest ++ l₂)) a = _
    rw [succOf_cons, if_neg (h₁ m (List.mem_cons_self _ _))]
    exact ih fun k hk => h₁ k (List.mem_cons_of_mem _ hk)

theorem succOf_cons_pos {l : List Node} {q : Node} {a : Nat}
    (h : a < q.block) : succOf (q :: l) a = some q := by
  unfold succOf; rw [if_pos h]

end CArenaModel

namespace CArenaModel

/-! ## Lemmas about `fitAlloc` -/

theorem fitAlloc_none_iff {l : List Node} {nb : Nat} :
    fitAlloc l nb = none ↔ ∀ m ∈ l, m.size < nb := by
  induction l with
  | nil => simp [fitAlloc]
  | cons n rest ih =>
    rw [fitAlloc_cons]
    by_cases hn : nb ≤ n.size
    · rw [if_pos hn]
      constructor
      · intro h; exact absurd h (by simp)
      · intro h
        exact absurd (h n (List.mem_cons_self _ _)) (by omega)
    · rw [if_neg hn]
      constructor
      · intro h k hk
        rcases List.mem_cons.1 hk with rfl | hk'
        · omega
        · cases hres : fitAlloc rest nb with
          | none => exact ih.1 hres k hk'
          | some r => rw [hres] at h; cases h
      · intro h
        rw [ih.2 fun k hk => h k (List.mem_cons_of_mem _ hk)]

/-- A successful first-fit search splits the free list at the first node
large enough and describes the updated list. -/
theorem fitAlloc_split {l : List Node} {nb : Nat} {a : Nat} {l' : List Node}
    (h : fitAlloc l nb = some (a, l')) :
    ∃ l₁ n l₂, l = l₁ ++ n :: l₂ ∧ (∀ m ∈ l₁, m.size < nb) ∧ nb ≤ n.size ∧
      a = n.block ∧
      l' = l₁ ++ (if nb < n.size then insertNL l₂ ⟨n.block + nb, n.size - nb⟩
                  else l₂) := by
  induction l generalizing l' with
  | nil => simp [fitAlloc] at h
  | cons n rest ih =>
    rw [fitAlloc_cons] at h
    by_cases hn : nb ≤ n.size
    · rw [if_pos hn] at h
      cases h
      exact ⟨[], n, rest, by simp, by simp, hn, rfl, by simp⟩
    · rw [if_neg hn] at h
      cases hres : fitAlloc rest nb with
      | none => rw [hres] at h; cases h
      | some r =>
        rw [hres] at h
        obtain ⟨b, rl⟩ := r
        cases h
        obtain ⟨l₁, k, l₂, hrest, hl₁, hk, hb, hrl⟩ := ih hres
        refine ⟨n :: l₁, k, l₂, by rw [hrest]; rfl, ?_, hk, hb, by rw [hrl]; rfl⟩
        intro m hm
        rcases List.mem_cons.1 hm with rfl | hm'
        · omega
        · exact hl₁ m hm'

/-! ## Chain-preservation lemmas -/

theorem covered_append {l₁ l₂ : List Node} {x : Nat} :
    covered (l₁ ++ l₂) x ↔ covered l₁ x ∨ covered l₂ x := by
  unfold covered
  constructor
  · rintro ⟨n, hn, hx⟩
    rcases List.mem_append.1 hn with h | h
    · exact Or.inl ⟨n, h, hx⟩
    · exact Or.inr ⟨n, h, hx⟩
  · rintro (⟨n, hn, hx⟩ | ⟨n, hn, hx⟩)
    · exact ⟨n, List.mem_append.2 (Or.inl hn), hx⟩
    · exact ⟨n, List.mem_append.2 (Or.inr hn), hx⟩

theorem covered_cons {n : Node} {l : List Node} {x : Nat} :
    covered (n :: l) x ↔ inRange n x ∨ covered l x := by
  unfold covered
  constructor
  · rintro ⟨k, hk, hx⟩
    rcases List.mem_cons.1 hk with rfl | hk'
    · exact Or.inl hx
    · exact Or.inr ⟨k, hk', hx⟩
  · rintro (hx | ⟨k, hk, hx⟩)
    · exact ⟨n, List.mem_cons_self _ _, hx⟩
    · exact ⟨k, List.mem_cons_of_mem _ hk, hx⟩

theorem covered_nil {x : Nat} : ¬ covered [] x := by
  rintro ⟨n, hn, _⟩; cases hn

/-- Extract the relations between a middle element and both sides of a
transitively sorted list. -/
theorem chain'_middle {r : Node → Node → Prop} [IsTrans Node r]
    {l₁ l₂ : List Node} {n : Node} (h : List.Chain' r (l₁ ++ n :: l₂)) :
    (∀ m ∈ l₁, r m n) ∧ (∀ m ∈ l₂, r n m) := by
  have hp := List.chain'_iff_pairwise.1 h
  obtain ⟨-, hmid, hcross⟩ := List.pairwise_append.1 hp
  exact ⟨fun m hm => hcross m hm n (List.mem_cons_self _ _),
    fun m hm => (List.pairwise_cons.1 hmid).1 m hm⟩

theorem insertNL_head? (l : List Node) (n : Node) :
    (insertNL l n).head? = some n ∨ (insertNL l n).head? = l.head? := by
  cases l with
  | nil => exact Or.inl rfl
  | cons m rest =>
    rw [insertNL_cons]
    by_cases h1 : n.block < m.block
    · rw [if_pos h1]; exact Or.inl rfl
    · rw [if_neg h1]
      by_cases h2 : m.block < n.block
      · rw [if_pos h2]; exact Or.inr rfl
      · rw [if_neg h2]; exact Or.inr rfl

/-- Ordered insertion preserves a `Chain'` whose relation is compatible
with the address order. -/
theorem chain'_insertNL {r : Node → Node → Prop} {l : List Node} {n : Node}
    (hl : List.Chain' r l)
    (hlo : ∀ m ∈ l, m.block < n.block → r m n)
    (hhi : ∀ m ∈ l, n.block < m.block → r n m)
    (hfresh : ∀ m ∈ l, m.block ≠ n.block) :
    List.Chain' r (insertNL l n) := by
  induction l with
  | nil => simp [insertNL]
  | cons m rest ih =>
    rw [insertNL_cons]
    rcases Nat.lt_trichotomy n.block m.block with h1 | h1 | h1
    · rw [if_pos h1]
      exact List.chain'_cons.2 ⟨hhi m (List.mem_cons_self _ _) h1, hl⟩
    · exact absurd h1.symm (hfresh m (List.mem_cons_self _ _))
    · rw [if_neg (by omega), if_pos h1]
      have hrest := (List.chain'_cons'.1 hl).2
      refine List.chain'_cons'.2 ⟨?_, ih hrest
        (fun k hk => hlo k (List.mem_cons_of_mem _ hk))
        (fun k hk => hhi k (List.mem_cons_of_mem _ hk))
        (fun k hk => hfresh k (List.mem_cons_of_mem _ hk))⟩
      intro y hy
      rcases insertNL_head? rest n with hh | hh
      · rw [hh] at hy; cases hy
        exact hlo m (List.mem_cons_self _ _) h1
      · rw [hh] at hy
        exact (List.chain'_cons'.1 hl).1 y hy

/-- Replacing the middle element of a sorted append, with a replacement
within the same bounds, preserves the chain. -/
theorem chain'_replace {r : Node → Node → Prop} {l₁ l₂ : List Node}
    {n n' : Node} (h : List.Chain' r (l₁ ++ n :: l₂))
    (hlo : ∀ m, r m n → r m n') (hhi : ∀ m, r n m → r n' m) :
    List.Chain' r (l₁ ++ n' :: l₂) := by
  obtain ⟨h₁, h₂, h₃⟩ := List.chain'_append.1 h
  refine List.chain'_append.2 ⟨h₁, ?_, ?_⟩
  · have := List.chain'_cons'.1 h₂
    exact List.chain'_cons'.2 ⟨fun y hy => hhi y (this.1 y hy), this.2⟩
  · intro x hx y hy
    rw [List.head?_cons] at hy
    cases hy
    exact hlo x (h₃ x hx n (by simp))

end CArenaModel

namespace CArenaModel

theorem inRange_def (n : Node) (x : Nat) :
    inRange n x ↔ n.block ≤ x ∧ x < n.block + n.size := Iff.rfl

/-- The structural invariant of a coalescing arena: both sets are sorted
by address, the free set leaves gaps between consecutive elements (no
overlap, no adjacency), no byte lies in both sets, together they cover
exactly the bytes of the acquired hunks, everything lies below the
platform cursor, and `m_used` equals the total size of all hunks. -/
structure Inv (st : CArena) : Prop where
  fchain : List.Chain' Rgap st.m_freelist
  fpos : ∀ n ∈ st.m_freelist, 0 < n.size
  bchain : List.Chain' Sle st.m_busylist
  bpos : ∀ n ∈ st.m_busylist, 0 < n.size
  hchain : List.Chain' Rgap st.m_alloc
  crossdisj : ∀ x, ¬ (covered st.m_freelist x ∧ covered st.m_busylist x)
  coveq : ∀ x,
    covered st.m_freelist x ∨ covered st.m_busylist x ↔ covered st.m_alloc x
  fbound : ∀ n ∈ st.m_freelist, n.block + n.size < st.next
  bbound : ∀ n ∈ st.m_busylist, n.block + n.size < st.next
  hbound : ∀ n ∈ st.m_alloc, n.block + n.size < st.next
  usedeq : st.m_used = (st.m_alloc.map Node.size).sum

/-- A freshly constructed arena satisfies the invariant. -/
theorem inv_mkCArena (hunk_size origin : Nat) : Inv (mkCArena hunk_size origin) := by
  refine ⟨?_, ?_, ?_, ?_, ?_, ?_, ?_, ?_, ?_, ?_, ?_⟩ <;>
    simp [mkCArena, covered_nil]

end CArenaModel

namespace CArenaModel

/-- First-fit allocation (the case where the free set satisfies the
request) preserves the invariant. -/
theorem Inv.alloc_fit {st : CArena} {nb a : Nat} {fl' : List Node}
    (hI : Inv st) (hnb : 0 < nb)
    (hfit : fitAlloc st.m_freelist nb = some (a, fl')) :
    Inv { st with m_freelist := fl',
                  m_busylist := insertNL st.m_busylist ⟨a, nb⟩ } := by
  obtain ⟨l₁, n, l₂, hfl, hl₁, hnsz, hab, hflx⟩ := fitAlloc_split hfit
  subst hab
  have hnmem : n ∈ st.m_freelist := by
    rw [hfl]; exact List.mem_append.2 (Or.inr (List.mem_cons_self _ _))
  have hnpos : 0 < n.size := hI.fpos n hnmem
  have hnbound : n.block + n.size < st.next := hI.fbound n hnmem
  have hfchain := hI.fchain
  rw [hfl] at hfchain
  have hmidr := (chain'_middle (r := Rgap) hfchain).2
  have hfpair : List.Pairwise Sle (l₁ ++ n :: l₂) :=
    (List.chain'_iff_pairwise.1 hfchain).imp Rgap.to_sle
  have hcovn : ∀ x, inRange n x → covered st.m_freelist x :=
    fun x hx => ⟨n, hnmem, hx⟩
  have hbdis : ∀ m ∈ st.m_busylist, ∀ x, inRange n x → ¬ inRange m x := by
    intro m hm x hx hmx
    exact hI.crossdisj x ⟨hcovn x hx, ⟨m, hm, hmx⟩⟩
  have hbfresh : ∀ m ∈ st.m_busylist, m.block ≠ n.block := by
    intro m hm heq
    have hmp := hI.bpos m hm
    exact hbdis m hm n.block (by simp only [inRange_def]; omega)
      (by simp only [inRange_def]; omega)
  have hblo : ∀ m ∈ st.m_busylist,
      m.block < (⟨n.block, nb⟩ : Node).block → Sle m ⟨n.block, nb⟩ := by
    intro m hm hlt
    have hlt' : m.block < n.block := hlt
    show m.block + m.size ≤ n.block
    by_contra hc
    push_neg at hc
    exact hbdis m hm n.block (by simp only [inRange_def]; omega)
      (by simp only [inRange_def]; omega)
  have hbhi : ∀ m ∈ st.m_busylist,
      (⟨n.block, nb⟩ : Node).block < m.block → Sle ⟨n.block, nb⟩ m := by
    intro m hm hlt
    have hlt' : n.block < m.block := hlt
    show n.block + nb ≤ m.block
    by_contra hc
    push_neg at hc
    have hmp := hI.bpos m hm
    exact hbdis m hm m.block (by simp only [inRange_def]; omega)
      (by simp only [inRange_def]; omega)
  have hcovb' : ∀ x, covered (insertNL st.m_busylist ⟨n.block, nb⟩) x ↔
      inRange (⟨n.block, nb⟩ : Node) x ∨ covered st.m_busylist x :=
    covered_insertNL (fun m hm => hbfresh m hm)
  have hbchain' : List.Chain' Sle (insertNL st.m_busylist ⟨n.block, nb⟩) :=
    chain'_insertNL hI.bchain hblo hbhi (fun m hm => hbfresh m hm)
  have hbpos' : ∀ k ∈ insertNL st.m_busylist ⟨n.block, nb⟩, 0 < k.size := by
    intro k hk
    rcases (mem_insertNL (l := st.m_busylist) (n := ⟨n.block, nb⟩)
        (fun m hm => hbfresh m hm) k).1 hk with rfl | hk'
    · exact hnb
    · exact hI.bpos k hk'
  have hbbound' : ∀ k ∈ insertNL st.m_busylist ⟨n.block, nb⟩,
      k.block + k.size < st.next := by
    intro k hk
    rcases (mem_insertNL (l := st.m_busylist) (n := ⟨n.block, nb⟩)
        (fun m hm => hbfresh m hm) k).1 hk with rfl | hk'
    · show n.block + nb < st.next
      omega
    · exact hI.bbound k hk'
  have hsub : ∀ x, inRange (⟨n.block, nb⟩ : Node) x → inRange n x := by
    intro x hx
    simp only [inRange_def] at hx ⊢
    omega
  by_cases hsplit : nb < n.size
  · -- the selected block is split
    have hins : insertNL l₂ ⟨n.block + nb, n.size - nb⟩ =
        (⟨n.block + nb, n.size - nb⟩ : Node) :: l₂ := by
      have h₂ : ∀ m ∈ l₂, (⟨n.block + nb, n.size - nb⟩ : Node).block < m.block := by
        intro m hm
        have := hmidr m hm
        unfold Rgap at this
        show n.block + nb < m.block
        omega
      exact insertNL_front h₂
    have hrm : fl' = l₁ ++ (⟨n.block + nb, n.size - nb⟩ : Node) :: l₂ := by
      rw [hflx, if_pos hsplit, hins]
    refine ⟨?_, ?_, hbchain', hbpos', hI.hchain, ?_, ?_, ?_, hbbound',
      hI.hbound, hI.usedeq⟩
    · show List.Chain' Rgap fl'
      rw [hrm]
      refine chain'_replace hfchain ?_ ?_
      · intro m hm
        unfold Rgap at hm ⊢
        show m.block + m.size < n.block + nb
        omega
      · intro m hm
        unfold Rgap at hm ⊢
        show n.block + nb + (n.size - nb) < m.block
        omega
    · show ∀ k ∈ fl', 0 < k.size
      intro k hk
      rw [hrm] at hk
      rcases List.mem_append.1 hk with h1 | h2
      · exact hI.fpos k (by rw [hfl]; exact List.mem_append.2 (Or.inl h1))
      · rcases List.mem_cons.1 h2 with rfl | h2'
        · show 0 < n.size - nb
          omega
        · exact hI.fpos k
            (by rw [hfl]
                exact List.mem_append.2 (Or.inr (List.mem_cons_of_mem _ h2')))
    · show ∀ x, ¬ (covered fl' x ∧ covered (insertNL st.m_busylist ⟨n.block, nb⟩) x)
      rintro x ⟨hf, hb⟩
      rw [hrm, covered_append, covered_cons] at hf
      rw [hcovb'] at hb
      rcases hb with hbn | hbold
      · have hxn : inRange n x := hsub x hbn
        rcases hf with h1 | hrm' | h2
        · obtain ⟨m, hm, hmx⟩ := h1
          exact mid_disjoint hfpair (List.mem_append.2 (Or.inl hm)) x hxn hmx
        · simp only [inRange_def] at hrm' hbn
          omega
        · obtain ⟨m, hm, hmx⟩ := h2
          exact mid_disjoint hfpair (List.mem_append.2 (Or.inr hm)) x hxn hmx
      · have hxf : covered st.m_freelist x := by
          rw [hfl, covered_append, covered_cons]
          rcases hf with h1 | hrm' | h2
          · exact Or.inl h1
          · refine Or.inr (Or.inl ?_)
            simp only [inRange_def] at hrm' ⊢
            omega
          · exact Or.inr (Or.inr h2)
        exact hI.crossdisj x ⟨hxf, hbold⟩
    · show ∀ x, covered fl' x ∨ covered (insertNL st.m_busylist ⟨n.block, nb⟩) x ↔
        covered st.m_alloc x
      intro x
      rw [hrm, covered_append, covered_cons, hcovb']
      have hold := hI.coveq x
      rw [hfl, covered_append, covered_cons] at hold
      have hiff : inRange n x ↔ inRange (⟨n.block, nb⟩ : Node) x ∨
          inRange (⟨n.block + nb, n.size - nb⟩ : Node) x := by
        simp only [inRange_def]
        omega
      tauto
    · show ∀ k ∈ fl', k.block + k.size < st.next
      intro k hk
      rw [hrm] at hk
      rcases List.mem_append.1 hk with h1 | h2
      · exact hI.fbound k (by rw [hfl]; exact List.mem_append.2 (Or.inl h1))
      · rcases List.mem_cons.1 h2 with rfl | h2'
        · show n.block + nb + (n.size - nb) < st.next
          omega
        · exact hI.fbound k
            (by rw [hfl]
                exact List.mem_append.2 (Or.inr (List.mem_cons_of_mem _ h2')))
  · -- the selected block is moved whole (nb = n.size)
    have hfl2 : fl' = l₁ ++ l₂ := by rw [hflx, if_neg hsplit]
    refine ⟨?_, ?_, hbchain', hbpos', hI.hchain, ?_, ?_, ?_, hbbound',
      hI.hbound, hI.usedeq⟩
    · show List.Chain' Rgap fl'
      rw [hfl2]
      exact hfchain.sublist ((List.sublist_cons_self n l₂).append_left l₁)
    · show ∀ k ∈ fl', 0 < k.size
      intro k hk
      rw [hfl2] at hk
      rcases List.mem_append.1 hk with h1 | h2
      · exact hI.fpos k (by rw [hfl]; exact List.mem_append.2 (Or.inl h1))
      · exact hI.fpos k
          (by rw [hfl]
              exact List.mem_append.2 (Or.inr (List.mem_cons_of_mem _ h2)))
    · show ∀ x, ¬ (covered fl' x ∧ covered (insertNL st.m_busylist ⟨n.block, nb⟩) x)
      rintro x ⟨hf, hb⟩
      rw [hfl2, covered_append] at hf
      rw [hcovb'] at hb
      rcases hb with hbn | hbold
      · have hxn : inRange n x := hsub x hbn
        rcases hf with h1 | h2
        · obtain ⟨m, hm, hmx⟩ := h1
          exact mid_disjoint hfpair (List.mem_append.2 (Or.inl hm)) x hxn hmx
        · obtain ⟨m, hm, hmx⟩ := h2
          exact mid_disjoint hfpair (List.mem_append.2 (Or.inr hm)) x hxn hmx
      · have hxf : covered st.m_freelist x := by
          rw [hfl, covered_append, covered_cons]
          tauto
        exact hI.crossdisj x ⟨hxf, hbold⟩
    · show ∀ x, covered fl' x ∨ covered (insertNL st.m_busylist ⟨n.block, nb⟩) x ↔
        covered st.m_alloc x
      intro x
      rw [hfl2, covered_append, hcovb']
      have hold := hI.coveq x
      rw [hfl, covered_append, covered_cons] at hold
      have hiff : inRange n x ↔ inRange (⟨n.block, nb⟩ : Node) x := by
        simp only [inRange_def]
        omega
      tauto
    · show ∀ k ∈ fl', k.block + k.size < st.next
      intro k hk
      rw [hfl2] at hk
      rcases List.mem_append.1 hk with h1 | h2
      · exact hI.fbound k (by rw [hfl]; exact List.mem_append.2 (Or.inl h1))
      · exact hI.fbound k
          (by rw [hfl]
              exact List.mem_append.2 (Or.inr (List.mem_cons_of_mem _ h2)))

end CArenaModel

namespace CArenaModel

theorem covered_singleton {n : Node} {x : Nat} :
    covered [n] x ↔ inRange n x := by
  unfold covered
  constructor
  · rintro ⟨k, hk, hkx⟩
    rcases List.mem_singleton.1 hk with rfl
    exact hkx
  · intro h
    exact ⟨n, List.mem_singleton.2 rfl, h⟩

theorem chain'_append_singleton {r : Node → Node → Prop} {l : List Node}
    {n : Node} (hl : List.Chain' r l) (h : ∀ m ∈ l, r m n) :
    List.Chain' r (l ++ [n]) := by
  refine List.chain'_append.2 ⟨hl, List.chain'_singleton _, ?_⟩
  intro x hx y hy
  have hxm := List.mem_of_getLast?_eq_some hx
  have hn' : n = y := by simpa using hy
  have hy' : y = n := hn'.symm
  rw [hy']
  exact h x hxm

/-- Acquiring a fresh hunk at the platform cursor preserves the
invariant. -/
theorem Inv.grow {st : CArena} {N : Nat} (hI : Inv st) (hN : 0 < N) :
    Inv { st with m_alloc := st.m_alloc ++ [⟨st.next, N⟩],
                  m_freelist := insertNL st.m_freelist ⟨st.next, N⟩,
                  m_used := st.m_used + N,
                  next := st.next + N + 1 } := by
  have hflt : ∀ m ∈ st.m_freelist, m.block < (⟨st.next, N⟩ : Node).block := by
    intro m hm
    have := hI.fbound m hm
    show m.block < st.next
    omega
  have hfold : insertNL st.m_freelist ⟨st.next, N⟩ =
      st.m_freelist ++ [⟨st.next, N⟩] := insertNL_append_last hflt
  have hcovf : ∀ x, covered (insertNL st.m_freelist ⟨st.next, N⟩) x ↔
      covered st.m_freelist x ∨ inRange (⟨st.next, N⟩ : Node) x := by
    intro x
    rw [hfold, covered_append, covered_singleton]
  refine ⟨?_, ?_, hI.bchain, hI.bpos, ?_, ?_, ?_, ?_, ?_, ?_, ?_⟩
  · show List.Chain' Rgap (insertNL st.m_freelist ⟨st.next, N⟩)
    rw [hfold]
    refine chain'_append_singleton hI.fchain ?_
    intro m hm
    have := hI.fbound m hm
    show m.block + m.size < st.next
    omega
  · show ∀ k ∈ insertNL st.m_freelist ⟨st.next, N⟩, 0 < k.size
    intro k hk
    rw [hfold] at hk
    rcases List.mem_append.1 hk with h | h
    · exact hI.fpos k h
    · rcases List.mem_singleton.1 h with rfl
      exact hN
  · show List.Chain' Rgap (st.m_alloc ++ [⟨st.next, N⟩])
    refine chain'_append_singleton hI.hchain ?_
    intro m hm
    have := hI.hbound m hm
    show m.block + m.size < st.next
    omega
  · show ∀ x, ¬ (covered (insertNL st.m_freelist ⟨st.next, N⟩) x ∧
      covered st.m_busylist x)
    rintro x ⟨hf, hb⟩
    rcases (hcovf x).1 hf with h | h
    · exact hI.crossdisj x ⟨h, hb⟩
    · obtain ⟨m, hm, hmx⟩ := hb
      have := hI.bbound m hm
      rw [inRange_def] at hmx
      have hx : st.next ≤ x := h.1
      omega
  · show ∀ x, covered (insertNL st.m_freelist ⟨st.next, N⟩) x ∨
      covered st.m_busylist x ↔ covered (st.m_alloc ++ [⟨st.next, N⟩]) x
    intro x
    rw [hcovf x, covered_append]
    have hold := hI.coveq x
    rw [covered_singleton]
    tauto
  · show ∀ k ∈ insertNL st.m_freelist ⟨st.next, N⟩,
      k.block + k.size < st.next + N + 1
    intro k hk
    rw [hfold] at hk
    rcases List.mem_append.1 hk with h | h
    · have := hI.fbound k h
      omega
    · rcases List.mem_singleton.1 h with rfl
      show st.next + N < st.next + N + 1
      omega
  · show ∀ k ∈ st.m_busylist, k.block + k.size < st.next + N + 1
    intro k hk
    have := hI.bbound k hk
    omega
  · show ∀ k ∈ st.m_alloc ++ [⟨st.next, N⟩], k.block + k.size < st.next + N + 1
    intro k hk
    rcases List.mem_append.1 hk with h | h
    · have := hI.hbound k h
      omega
    · rcases List.mem_singleton.1 h with rfl
      show st.next + N < st.next + N + 1
      omega
  · show st.m_used + N =
      ((st.m_alloc ++ [(⟨st.next, N⟩ : Node)]).map Node.size).sum
    rw [List.map_append, List.sum_append, ← hI.usedeq]
    simp

/-- `alloc` preserves the invariant (both the fit case and the growth
case). -/
theorem Inv.alloc_inv {st : CArena} (hI : Inv st) {nb : Nat} (hnb : 0 < nb) :
    Inv (st.alloc nb).1 := by
  unfold CArena.alloc
  split
  · next a fl' heq =>
    exact hI.alloc_fit hnb heq
  · next heq =>
    have hN : 0 < max nb st.m_hunk := lt_of_lt_of_le hnb (le_max_left _ _)
    have hIg := hI.grow (N := max nb st.m_hunk) hN
    split
    · next b fl' heq2 =>
      exact hIg.alloc_fit hnb heq2
    · next heq2 =>
      exfalso
      have hfresh : ∀ m ∈ st.m_freelist,
          m.block ≠ (⟨st.next, max nb st.m_hunk⟩ : Node).block := by
        intro m hm
        have := hI.fbound m hm
        show m.block ≠ st.next
        omega
      have hmem : (⟨st.next, max nb st.m_hunk⟩ : Node) ∈
          insertNL st.m_freelist ⟨st.next, max nb st.m_hunk⟩ :=
        (mem_insertNL hfresh _).2 (Or.inl rfl)
      have := fitAlloc_none_iff.1 heq2 _ hmem
      have hle : nb ≤ max nb st.m_hunk := le_max_left _ _
      simp only at this
      omega

end CArenaModel

namespace CArenaModel

/-- A list sorted by block address splits at a threshold address. -/
theorem sorted_split (l : List Node) (hs : List.Chain' Bord l) (a : Nat) :
    ∃ l₁ l₂, l = l₁ ++ l₂ ∧ (∀ m ∈ l₁, m.block < a) ∧
      (∀ m ∈ l₂, ¬ m.block < a) := by
  induction l with
  | nil => exact ⟨[], [], rfl, by simp, by simp⟩
  | cons m rest ih =>
    by_cases hm : m.block < a
    · obtain ⟨l₁, l₂, hl, h₁, h₂⟩ := ih (List.chain'_cons'.1 hs).2
      refine ⟨m :: l₁, l₂, by rw [hl]; rfl, ?_, h₂⟩
      intro k hk
      rcases List.mem_cons.1 hk with rfl | hk'
      · exact hm
      · exact h₁ k hk'
    · refine ⟨[], m :: rest, rfl, by simp, ?_⟩
      intro k hk
      rcases List.mem_cons.1 hk with rfl | hk'
      · exact hm
      · have := (List.pairwise_cons.1 (List.chain'_iff_pairwise.1 hs)).1 k hk'
        unfold Bord at this
        omega

theorem freeFinish_eq_none {st : CArena} {a blk sz : Nat} {fl1 : List Node}
    (h : succOf fl1 blk = none) :
    freeFinish st a blk sz fl1 =
      { st with m_busylist := eraseBlk st.m_busylist a,
                m_freelist := insertNL fl1 ⟨blk, sz⟩ } := by
  unfold freeFinish
  rw [h]

theorem freeFinish_eq_merge {st : CArena} {a blk sz : Nat} {fl1 : List Node}
    {q : Node} (h : succOf fl1 blk = some q) (hq : q.block = blk + sz) :
    freeFinish st a blk sz fl1 =
      { st with m_busylist := eraseBlk st.m_busylist a,
                m_freelist :=
                  insertNL (eraseBlk fl1 q.block) ⟨blk, sz + q.size⟩ } := by
  unfold freeFinish
  rw [h]
  exact if_pos hq

theorem freeFinish_eq_nomerge {st : CArena} {a blk sz : Nat} {fl1 : List Node}
    {q : Node} (h : succOf fl1 blk = some q) (hq : ¬ q.block = blk + sz) :
    freeFinish st a blk sz fl1 =
      { st with m_busylist := eraseBlk st.m_busylist a,
                m_freelist := insertNL fl1 ⟨blk, sz⟩ } := by
  unfold freeFinish
  rw [h]
  exact if_neg hq

/-- The second half of a release (`freeFinish`) preserves the invariant,
under the facts established after the busy-set removal and the
predecessor merge: `fl1` splits into a low part `g₁` ending strictly
before `blk` and a high part `f₂` starting at or beyond the freed
block's end, and the merged block `(blk, sz)` accounts exactly for the
released busy block `n` plus whatever predecessor was absorbed. -/
theorem freeFinish_inv {st : CArena} {a blk sz : Nat} {n : Node}
    {b₁ b₂ g₁ f₂ fl1 : List Node}
    (hI : Inv st)
    (hbl : st.m_busylist = b₁ ++ n :: b₂)
    (hberase : eraseBlk st.m_busylist a = b₁ ++ b₂)
    (hna : n.block = a)
    (hfl1 : fl1 = g₁ ++ f₂)
    (hg₁ : ∀ m ∈ g₁, m.block + m.size < blk)
    (hf₂ : ∀ m ∈ f₂, a + n.size ≤ m.block)
    (hchain1 : List.Chain' Rgap fl1)
    (hsub1 : ∀ m ∈ fl1, m ∈ st.m_freelist)
    (hble : blk ≤ a) (hsum : blk + sz = a + n.size)
    (hcov1 : ∀ x, covered fl1 x ∨ inRange (⟨blk, sz⟩ : Node) x ↔
      covered st.m_freelist x ∨ inRange n x) :
    Inv (freeFinish st a blk sz fl1) := by
  have hnmemB : n ∈ st.m_busylist := by
    rw [hbl]; exact List.mem_append.2 (Or.inr (List.mem_cons_self _ _))
  have hnpos : 0 < n.size := hI.bpos n hnmemB
  have hnbound : n.block + n.size < st.next := hI.bbound n hnmemB
  have hszpos : 0 < sz := by omega
  have hbsub : ∀ m ∈ b₁ ++ b₂, m ∈ st.m_busylist := by
    intro m hm
    rw [hbl]
    rcases List.mem_append.1 hm with h1 | h2
    · exact List.mem_append.2 (Or.inl h1)
    · exact List.mem_append.2 (Or.inr (List.mem_cons_of_mem _ h2))
  have hbusychain : List.Chain' Sle (b₁ ++ b₂) := by
    have := hI.bchain
    rw [hbl] at this
    exact this.sublist ((List.sublist_cons_self n b₂).append_left b₁)
  have hbpair : List.Pairwise Sle (b₁ ++ n :: b₂) := by
    have := hI.bchain
    rw [hbl] at this
    exact List.chain'_iff_pairwise.1 this
  have hcovbusy : ∀ x, covered st.m_busylist x ↔
      covered (b₁ ++ b₂) x ∨ inRange n x := by
    intro x
    rw [hbl, covered_append, covered_cons, covered_append]
    tauto
  have hnbusy_disj : ∀ x, inRange n x → ¬ covered (b₁ ++ b₂) x := by
    rintro x hx ⟨m, hm, hmx⟩
    exact mid_disjoint hbpair hm x hx hmx
  have hg₁sub : ∀ m ∈ g₁, m ∈ st.m_freelist := by
    intro m hm
    exact hsub1 m (by rw [hfl1]; exact List.mem_append.2 (Or.inl hm))
  have hg₁blk : ∀ m ∈ g₁, ¬ blk < m.block := by
    intro m hm
    have := hg₁ m hm
    omega
  have hf₂blk : ∀ m ∈ f₂, blk < m.block := by
    intro m hm
    have := hf₂ m hm
    omega
  -- shared closing argument, for any merged node and high part
  have main : ∀ (nn : Node) (h₂ : List Node),
      List.Chain' Rgap h₂ →
      (∀ m ∈ h₂, m ∈ st.m_freelist) →
      (∀ m ∈ h₂, nn.block + nn.size < m.block) →
      (∀ x, inRange nn x ∨ covered h₂ x ↔
        inRange (⟨blk, sz⟩ : Node) x ∨ covered f₂ x) →
      0 < nn.size → nn.block = blk → nn.block + nn.size < st.next →
      Inv { st with m_busylist := eraseBlk st.m_busylist a,
                    m_freelist := g₁ ++ nn :: h₂ } := by
    intro nn h₂ hc2 hsub2 hgap2 hiff2 hpos2 hblk2 hbound2
    have hcovFL : ∀ x, covered (g₁ ++ nn :: h₂) x ↔
        covered st.m_freelist x ∨ inRange n x := by
      intro x
      have h1 := hcov1 x
      have h3 : covered fl1 x ↔ covered g₁ x ∨ covered f₂ x := by
        rw [hfl1, covered_append]
      rw [covered_append, covered_cons, hiff2 x, ← h1, h3]
      tauto
    refine ⟨?_, ?_, ?_, ?_, hI.hchain, ?_, ?_, ?_, ?_, hI.hbound, hI.usedeq⟩
    · show List.Chain' Rgap (g₁ ++ nn :: h₂)
      refine List.chain'_append.2 ⟨?_, ?_, ?_⟩
      · exact hchain1.sublist (by rw [hfl1]; exact List.sublist_append_left g₁ f₂)
      · refine List.chain'_cons'.2 ⟨?_, hc2⟩
        intro y hy
        have hym : y ∈ h₂ := List.mem_of_mem_head? hy
        exact hgap2 y hym
      · intro x hx y hy
        have hxm := List.mem_of_getLast?_eq_some hx
        have hyn : nn = y := by simpa using hy
        have h1 := hg₁ x hxm
        show x.block + x.size < y.block
        rw [← hyn]
        omega
    · show ∀ k ∈ g₁ ++ nn :: h₂, 0 < k.size
      intro k hk
      rcases List.mem_append.1 hk with h1 | h2
      · exact hI.fpos k (hg₁sub k h1)
      · rcases List.mem_cons.1 h2 with rfl | h2'
        · exact hpos2
        · exact hI.fpos k (hsub2 k h2')
    · show List.Chain' Sle (eraseBlk st.m_busylist a)
      rw [hberase]
      exact hbusychain
    · show ∀ k ∈ eraseBlk st.m_busylist a, 0 < k.size
      rw [hberase]
      intro k hk
      exact hI.bpos k (hbsub k hk)
    · show ∀ x, ¬ (covered (g₁ ++ nn :: h₂) x ∧
        covered (eraseBlk st.m_busylist a) x)
      rintro x ⟨hf, hb⟩
      rw [hberase] at hb
      rcases (hcovFL x).1 hf with h1 | h1
      · exact hI.crossdisj x ⟨h1, (hcovbusy x).2 (Or.inl hb)⟩
      · exact hnbusy_disj x h1 hb
    · show ∀ x, covered (g₁ ++ nn :: h₂) x ∨
        covered (eraseBlk st.m_busylist a) x ↔ covered st.m_alloc x
      intro x
      rw [hberase, hcovFL x]
      have h1 := hI.coveq x
      have h2 := hcovbusy x
      tauto
    · show ∀ k ∈ g₁ ++ nn :: h₂, k.block + k.size < st.next
      intro k hk
      rcases List.mem_append.1 hk with h1 | h2
      · exact hI.fbound k (hg₁sub k h1)
      · rcases List.mem_cons.1 h2 with rfl | h2'
        · exact hbound2
        · exact hI.fbound k (hsub2 k h2')
    · show ∀ k ∈ eraseBlk st.m_busylist a, k.block + k.size < st.next
      rw [hberase]
      intro k hk
      exact hI.bbound k (hbsub k hk)
  have hsucc : succOf fl1 blk = succOf f₂ blk := by
    rw [hfl1]; exact succOf_append hg₁blk
  cases hf2c : f₂ with
  | nil =>
    subst hf2c
    have hs0 : succOf fl1 blk = none := hsucc
    have hins : insertNL fl1 ⟨blk, sz⟩ = g₁ ++ [(⟨blk, sz⟩ : Node)] := by
      have : fl1 = g₁ := by rw [hfl1, List.append_nil]
      rw [this]
      exact insertNL_append_last (fun m hm => by
        have := hg₁ m hm
        show m.block < blk
        omega)
    rw [freeFinish_eq_none hs0, hins]
    refine main ⟨blk, sz⟩ [] (by simp) (by simp) (by simp)
      (fun x => ?_) hszpos rfl (show blk + sz < st.next by omega)
    exact Iff.rfl
  | cons q f₂' =>
    subst hf2c
    have hqmemf : q ∈ fl1 := by
      rw [hfl1]; exact List.mem_append.2 (Or.inr (List.mem_cons_self _ _))
    have hqmem : q ∈ st.m_freelist := hsub1 q hqmemf
    have hqpos : 0 < q.size := hI.fpos q hqmem
    have hqbound : q.block + q.size < st.next := hI.fbound q hqmem
    have hqblk : blk < q.block := hf₂blk q (List.mem_cons_self _ _)
    have hs1 : succOf fl1 blk = some q := by
      rw [hsucc]; exact succOf_cons_pos hqblk
    have hfch1 : List.Chain' Rgap (g₁ ++ q :: f₂') := by
      rw [← hfl1]; exact hchain1
    have hmidq := chain'_middle (r := Rgap) hfch1
    by_cases hqm : q.block = blk + sz
    · -- successor merge
      have hne : ∀ m ∈ g₁, m.block ≠ q.block := by
        intro m hm
        have := hg₁ m hm
        omega
      have herase1 : eraseBlk fl1 q.block = g₁ ++ f₂' := by
        rw [hfl1, eraseBlk_append_left hne, eraseBlk_cons_self rfl]
      have hins : insertNL (g₁ ++ f₂') ⟨blk, sz + q.size⟩ =
          g₁ ++ (⟨blk, sz + q.size⟩ : Node) :: f₂' := by
        refine insertNL_middle ?_ ?_
        · intro m hm
          have := hg₁ m hm
          show m.block < blk
          omega
        · intro m hm
          have h1 := hmidq.2 m hm
          unfold Rgap at h1
          show blk < m.block
          omega
      rw [freeFinish_eq_merge hs1 hqm, herase1, hins]
      refine main ⟨blk, sz + q.size⟩ f₂' ?_ ?_ ?_ ?_
        (show 0 < sz + q.size by omega) rfl ?_
      · exact hchain1.sublist (by
          rw [hfl1]
          exact (List.sublist_cons_self q f₂').trans
            (List.sublist_append_right g₁ (q :: f₂')))
      · intro m hm
        exact hsub1 m (by
          rw [hfl1]
          exact List.mem_append.2 (Or.inr (List.mem_cons_of_mem _ hm)))
      · intro m hm
        have h1 := hmidq.2 m hm
        unfold Rgap at h1
        show blk + (sz + q.size) < m.block
        omega
      · intro x
        rw [covered_cons]
        have hq : inRange (⟨blk, sz + q.size⟩ : Node) x ↔
            inRange (⟨blk, sz⟩ : Node) x ∨ inRange q x := by
          simp only [inRange_def]
          omega
        tauto
      · show blk + (sz + q.size) < st.next
        omega
    · -- no successor merge
      have hins : insertNL fl1 ⟨blk, sz⟩ =
          g₁ ++ (⟨blk, sz⟩ : Node) :: (q :: f₂') := by
        rw [hfl1]
        refine insertNL_middle ?_ ?_
        · intro m hm
          have := hg₁ m hm
          show m.block < blk
          omega
        · intro m hm
          have := hf₂blk m hm
          exact this
      rw [freeFinish_eq_nomerge hs1 hqm, hins]
      refine main ⟨blk, sz⟩ (q :: f₂') ?_ ?_ ?_ (fun x => Iff.rfl) hszpos rfl
        (show blk + sz < st.next by omega)
      · exact hchain1.sublist (by
          rw [hfl1]
          exact List.sublist_append_right g₁ (q :: f₂'))
      · intro m hm
        exact hsub1 m (by
          rw [hfl1]
          exact List.mem_append.2 (Or.inr hm))
      · intro m hm
        rcases List.mem_cons.1 hm with rfl | hm'
        · have h1 := hf₂ m (List.mem_cons_self _ _)
          show blk + sz < m.block
          omega
        · have h1 := hmidq.2 m hm'
          unfold Rgap at h1
          have h2 := hf₂ q (List.mem_cons_self _ _)
          show blk + sz < m.block
          omega

end CArenaModel

namespace CArenaModel

/-- A successful `free` preserves the invariant. -/
theorem Inv.free_inv {st : CArena} (hI : Inv st) {a : Nat} {st' : CArena}
    (h : st.free a = some st') : Inv st' := by
  unfold CArena.free at h
  split at h
  · exact absurd h (by simp)
  · next n hlook =>
    obtain ⟨hna, b₁, b₂, hbl, hb₁, hberase⟩ := lookupBlk_split hlook
    have hBord : List.Chain' Bord st.m_freelist :=
      hI.fchain.imp (fun _ _ hab => Rgap.to_bord hab)
    obtain ⟨f₁, f₂, hffl, hf₁, hf₂0⟩ := sorted_split st.m_freelist hBord a
    have hnmemB : n ∈ st.m_busylist := by
      rw [hbl]; exact List.mem_append.2 (Or.inr (List.mem_cons_self _ _))
    have hnpos : 0 < n.size := hI.bpos n hnmemB
    have hcovnB : ∀ x, inRange n x → covered st.m_busylist x :=
      fun x hx => ⟨n, hnmemB, hx⟩
    have hdich : ∀ m ∈ st.m_freelist,
        m.block + m.size ≤ a ∨ a + n.size ≤ m.block := by
      intro m hm
      by_contra hc
      push_neg at hc
      have hmp := hI.fpos m hm
      rcases Nat.le_total m.block a with hca | hca
      · refine hI.crossdisj a ⟨⟨m, hm, ?_⟩, hcovnB _ ?_⟩ <;>
          (simp only [inRange_def]; omega)
      · refine hI.crossdisj m.block ⟨⟨m, hm, ?_⟩, hcovnB _ ?_⟩ <;>
          (simp only [inRange_def]; omega)
    have hf₁s : ∀ m ∈ f₁, m.block + m.size ≤ a := by
      intro m hm
      have h1 := hf₁ m hm
      rcases hdich m (by rw [hffl]; exact List.mem_append.2 (Or.inl hm)) with
        h2 | h2
      · exact h2
      · omega
    have hf₂s : ∀ m ∈ f₂, a + n.size ≤ m.block := by
      intro m hm
      have h1 := hf₂0 m hm
      have hmp := hI.fpos m (by rw [hffl]; exact List.mem_append.2 (Or.inr hm))
      rcases hdich m (by rw [hffl]; exact List.mem_append.2 (Or.inr hm)) with
        h2 | h2
      · omega
      · exact h2
    have hpredeq : predOf st.m_freelist a = f₁.getLast? := by
      rw [hffl]; exact predOf_append hf₁ hf₂0
    split at h
    · next p hpred =>
      rw [hpredeq] at hpred
      obtain ⟨f₁', hf₁'⟩ := List.getLast?_eq_some_iff.1 hpred
      have hpmem : p ∈ st.m_freelist := by
        rw [hffl, hf₁']
        exact List.mem_append.2
          (Or.inl (List.mem_append.2 (Or.inr (List.mem_cons_self _ _))))
      have hppos := hI.fpos p hpmem
      have hfch : List.Chain' Rgap (f₁' ++ p :: f₂) := by
        have htmp := hI.fchain
        rw [hffl, hf₁', List.append_assoc, List.singleton_append] at htmp
        exact htmp
      have hmidp := chain'_middle (r := Rgap) hfch
      have hpstop : p.block + p.size ≤ a := hf₁s p (by
        rw [hf₁']; exact List.mem_append.2 (Or.inr (List.mem_cons_self _ _)))
      split at h
      · next hmerge =>
        -- predecessor absorbed: blk = p.block, sz = p.size + n.size
        injection h with h2
        subst h2
        have hpa : p.block + p.size = a := by rw [hmerge, hna]
        have hne : ∀ m ∈ f₁', m.block ≠ p.block := by
          intro m hm
          have := hmidp.1 m hm
          unfold Rgap at this
          omega
        have herase : eraseBlk st.m_freelist p.block = f₁' ++ f₂ := by
          rw [hffl, hf₁', List.append_assoc, List.singleton_append,
            eraseBlk_append_left hne, eraseBlk_cons_self rfl]
        refine freeFinish_inv hI hbl hberase hna herase ?_ hf₂s ?_ ?_
          (by omega) (by omega) ?_
        · intro m hm
          have := hmidp.1 m hm
          unfold Rgap at this
          exact this
        · rw [herase]
          exact hfch.sublist ((List.sublist_cons_self p f₂).append_left f₁')
        · rw [herase]
          intro m hm
          rw [hffl, hf₁', List.append_assoc, List.singleton_append]
          rcases List.mem_append.1 hm with h1 | h2
          · exact List.mem_append.2 (Or.inl h1)
          · exact List.mem_append.2 (Or.inr (List.mem_cons_of_mem _ h2))
        · intro x
          rw [herase, covered_append]
          have hrhs : covered st.m_freelist x ↔
              covered f₁' x ∨ inRange p x ∨ covered f₂ x := by
            rw [hffl, hf₁', List.append_assoc, List.singleton_append,
              covered_append, covered_cons]
          have hpn : inRange (⟨p.block, p.size + n.size⟩ : Node) x ↔
              inRange p x ∨ inRange n x := by
            simp only [inRange_def]
            omega
          rw [hrhs, hpn]
          tauto
      · next hmerge =>
        -- predecessor present but not adjacent
        injection h with h2
        subst h2
        have hpltn : p.block + p.size < n.block := by
          have h1 : p.block + p.size ≠ n.block := hmerge
          omega
        refine freeFinish_inv hI hbl hberase hna hffl ?_ hf₂s hI.fchain
          (fun m hm => hm) (by omega) (by omega) (fun x => Iff.rfl)
        intro m hm
        rw [hf₁'] at hm
        rcases List.mem_append.1 hm with h1 | h2
        · have := hmidp.1 m h1
          unfold Rgap at this
          show m.block + m.size < n.block
          omega
        · rcases List.mem_singleton.1 h2 with rfl
          show m.block + m.size < n.block
          omega
    · next hpred =>
      rw [hpredeq] at hpred
      have hf₁nil : f₁ = [] := List.getLast?_eq_none_iff.1 hpred
      injection h with h2
      subst h2
      have hflf₂ : st.m_freelist = [] ++ f₂ := by
        rw [hffl, hf₁nil]
      refine freeFinish_inv hI hbl hberase hna hflf₂ (by simp) hf₂s hI.fchain
        (fun m hm => hm) (by omega) (by omega) (fun x => Iff.rfl)

end CArenaModel

namespace CArenaModel

/-- Every reachable arena state satisfies the structural invariant. -/
theorem Inv.of_reach {st : CArena} (h : Reach st) : Inv st := by
  induction h with
  | init hunk_size origin => exact inv_mkCArena hunk_size origin
  | alloc st n _ hn ih => exact ih.alloc_inv hn
  | free st st' a _ hf ih => exact ih.free_inv hf

end CArenaModel

namespace CArenaModel

/-- C2: `Node::operator<` holds iff the first descriptor's start address
is below the second's, `Node::operator==` holds iff the start addresses
are equal, and both comparisons are insensitive to the descriptors'
sizes. -/
theorem node_order_by_address_only (a b : Node) :
    (Node.ltb a b = true ↔ a.block < b.block) ∧
    (Node.eqb a b = true ↔ a.block = b.block) ∧
    (∀ s t : Nat, Node.ltb ⟨a.block, s⟩ ⟨b.block, t⟩ = Node.ltb a b ∧
      Node.eqb ⟨a.block, s⟩ ⟨b.block, t⟩ = Node.eqb a b) := by
  refine ⟨?_, ?_, ?_⟩
  · simp [Node.ltb]
  · simp [Node.eqb]
  · intro s t
    exact ⟨rfl, rfl⟩

/-- C9: releasing an address that is not the start address of any busy
block aborts (returns `none`), leaving the arena untouched. -/
theorem free_invalid_aborts (st : CArena) (a : Nat)
    (h : ∀ m ∈ st.m_busylist, m.block ≠ a) : st.free a = none := by
  unfold CArena.free
  rw [lookupBlk_eq_none.2 h]

/-- Witness for C9 at a concrete reachable state: after one allocation
the interior address 3 of the split block is not a busy start address,
and releasing it aborts. -/
theorem free_invalid_aborts_witness :
    (∀ m ∈ ((mkCArena 10 0).alloc 5).1.m_busylist, m.block ≠ 3) ∧
    ((mkCArena 10 0).alloc 5).1.free 3 = none := by
  refine ⟨by decide, free_invalid_aborts _ 3 (by decide)⟩

/-- C3: in every reachable state the free and busy sets are disjoint and
together cover exactly the bytes of all acquired hunks. -/
theorem partition_invariant (st : CArena) (h : Reach st) :
    (∀ x, ¬ (covered st.m_freelist x ∧ covered st.m_busylist x)) ∧
    (∀ x, covered st.m_freelist x ∨ covered st.m_busylist x ↔
      covered st.m_alloc x) :=
  ⟨(Inv.of_reach h).crossdisj, (Inv.of_reach h).coveq⟩

/-- Witness for C3 at a concrete reachable state (one allocation from a
fresh arena). -/
theorem partition_invariant_witness :
    (∀ x, ¬ (covered ((mkCArena 10 0).alloc 5).1.m_freelist x ∧
      covered ((mkCArena 10 0).alloc 5).1.m_busylist x)) ∧
    (∀ x, covered ((mkCArena 10 0).alloc 5).1.m_freelist x ∨
      covered ((mkCArena 10 0).alloc 5).1.m_busylist x ↔
      covered ((mkCArena 10 0).alloc 5).1.m_alloc x) :=
  partition_invariant _ (Reach.alloc _ 5 (Reach.init 10 0) (by decide))

/-- C5: in every reachable state, no two distinct free-set elements touch
(no end address equals another's start address) and no two overlap. -/
theorem no_adjacent_free (st : CArena) (h : Reach st) :
    List.Pairwise (fun m n => m.block + m.size ≠ n.block ∧
      n.block + n.size ≠ m.block ∧ ∀ x, ¬ (inRange m x ∧ inRange n x))
      st.m_freelist := by
  have hp := List.chain'_iff_pairwise.1 (Inv.of_reach h).fchain
  refine hp.imp ?_
  intro m n hr
  unfold Rgap at hr
  refine ⟨by omega, by omega, ?_⟩
  intro x hx
  simp only [inRange_def] at hx
  omega

/-- Witness for C5 at a concrete reachable state. -/
theorem no_adjacent_free_witness :
    List.Pairwise (fun m n => m.block + m.size ≠ n.block ∧
      n.block + n.size ≠ m.block ∧ ∀ x, ¬ (inRange m x ∧ inRange n x))
      ((mkCArena 10 0).alloc 5).1.m_freelist :=
  no_adjacent_free _ (Reach.alloc _ 5 (Reach.init 10 0) (by decide))

end CArenaModel

namespace CArenaModel

theorem freeFinish_used (st : CArena) (a blk sz : Nat) (fl1 : List Node) :
    (freeFinish st a blk sz fl1).m_used = st.m_used := by
  unfold freeFinish
  split
  · split <;> rfl
  · rfl

theorem free_used {st st' : CArena} {a : Nat} (h : st.free a = some st') :
    st'.m_used = st.m_used := by
  unfold CArena.free at h
  split at h
  · exact absurd h (by simp)
  · split at h
    · split at h
      · injection h with h2
        subst h2
        exact freeFinish_used _ _ _ _ _
      · injection h with h2
        subst h2
        exact freeFinish_used _ _ _ _ _
    · injection h with h2
      subst h2
      exact freeFinish_used _ _ _ _ _

theorem alloc_used_le (st : CArena) (nb : Nat) :
    st.m_used ≤ (st.alloc nb).1.m_used := by
  unfold CArena.alloc
  split
  · exact Nat.le_refl _
  · split
    · show st.m_used ≤ st.m_used + max nb st.m_hunk
      omega
    · show st.m_used ≤ st.m_used + max nb st.m_hunk
      omega

/-- C7: `heap_space_used` never decreases across any operation (in
particular `free` leaves it unchanged), and in every reachable state it
equals the cumulative size of all hunks acquired from the platform. -/
theorem heap_space_used_monotone :
    (∀ st st' : CArena, Step st st' →
      st.heap_space_used ≤ st'.heap_space_used) ∧
    (∀ st st' : CArena, ∀ a : Nat, st.free a = some st' →
      st'.heap_space_used = st.heap_space_used) ∧
    (∀ st : CArena, Reach st →
      st.heap_space_used = (st.m_alloc.map Node.size).sum) := by
  refine ⟨?_, ?_, ?_⟩
  · rintro st st' (⟨n, _, rfl⟩ | ⟨a, hf⟩)
    · exact alloc_used_le st n
    · exact Nat.le_of_eq (free_used hf).symm
  · intro st st' a hf
    exact free_used hf
  · intro st h
    exact (Inv.of_reach h).usedeq

/-- Witness for C7 on a concrete allocation step and a concrete release. -/
theorem heap_space_used_monotone_witness :
    ((mkCArena 10 0).heap_space_used ≤
      ((mkCArena 10 0).alloc 5).1.heap_space_used) ∧
    (∀ st' : CArena, ((mkCArena 10 0).alloc 5).1.free 0 = some st' →
      st'.heap_space_used = ((mkCArena 10 0).alloc 5).1.heap_space_used) ∧
    ((mkCArena 10 0).alloc 5).1.heap_space_used =
      (((mkCArena 10 0).alloc 5).1.m_alloc.map Node.size).sum := by
  refine ⟨heap_space_used_monotone.1 _ _ (Or.inl ⟨5, by decide, rfl⟩),
    fun st' h => heap_space_used_monotone.2.1 _ st' 0 h,
    heap_space_used_monotone.2.2 _ (Reach.alloc _ 5 (Reach.init 10 0) (by decide))⟩

/-- C10: each of the two `std::set<Node>` containers holds at most one
descriptor per start address in every reachable state, and inserting a
node whose start address is already present leaves the set unchanged
(the incoming node's size is discarded). -/
theorem set_keyed_by_address :
    (∀ st : CArena, Reach st →
      (st.m_freelist.map Node.block).Nodup ∧
      (st.m_busylist.map Node.block).Nodup) ∧
    (∀ (l : List Node) (n : Node), List.Chain' Bord l →
      n.block ∈ l.map Node.block → insertNL l n = l) := by
  constructor
  · intro st h
    have hI := Inv.of_reach h
    constructor
    · have hp := List.chain'_iff_pairwise.1 hI.fchain
      exact hp.map Node.block (fun a b hab => by
        unfold Rgap at hab
        show a.block ≠ b.block
        omega)
    · have hp := List.chain'_iff_pairwise.1 hI.bchain
      have hp' : List.Pairwise (fun a b : Node => a.block ≠ b.block)
          st.m_busylist := by
        refine hp.imp_of_mem ?_
        intro a b ha _ hab
        have := hI.bpos a ha
        unfold Sle at hab
        omega
      exact hp'.map Node.block (fun a b hab => hab)
  · intro l n hs hmem
    exact insertNL_dup hs hmem

end CArenaModel

namespace CArenaModel

/-- Witness for C10: a concrete reachable state has address-distinct
descriptors, and a duplicate-address insertion is a no-op that discards
the incoming size. -/
theorem set_keyed_by_address_witness :
    ((((mkCArena 10 0).alloc 5).1.m_freelist.map Node.block).Nodup ∧
     (((mkCArena 10 0).alloc 5).1.m_busylist.map Node.block).Nodup) ∧
    insertNL [⟨0, 5⟩] ⟨0, 7⟩ = [⟨0, 5⟩] :=
  ⟨set_keyed_by_address.1 _ (Reach.alloc _ 5 (Reach.init 10 0) (by decide)),
   set_keyed_by_address.2 [⟨0, 5⟩] ⟨0, 7⟩ (List.chain'_singleton _) (by decide)⟩

end CArenaModel

namespace CArenaModel

theorem alloc_eq_of_fit {st : CArena} {nb a : Nat} {fl' : List Node}
    (hfit : fitAlloc st.m_freelist nb = some (a, fl')) :
    st.alloc nb = ({ st with m_freelist := fl',
                             m_busylist := insertNL st.m_busylist ⟨a, nb⟩ },
      a) := by
  unfold CArena.alloc
  simp only [hfit]

/-- C4: first-fit with splitting — when some free element satisfies a
positive request `s`, `alloc` selects the fitting element with the
lowest start address, returns its start address, moves its low `s` bytes
to the busy set, and reinserts the remainder (when any) as a free range
starting immediately after the returned block. -/
theorem alloc_first_fit (st : CArena) (s : Nat)
    (hchain : List.Chain' Rgap st.m_freelist) (hs : 0 < s)
    (hfit : ∃ m ∈ st.m_freelist, s ≤ m.size) :
    ∃ sel l₁ l₂, st.m_freelist = l₁ ++ sel :: l₂ ∧ s ≤ sel.size ∧
      (∀ m ∈ st.m_freelist, s ≤ m.size → sel.block ≤ m.block) ∧
      (st.alloc s).2 = sel.block ∧
      (st.alloc s).1.m_busylist = insertNL st.m_busylist ⟨sel.block, s⟩ ∧
      (st.alloc s).1.m_freelist =
        l₁ ++ (if s < sel.size
               then (⟨sel.block + s, sel.size - s⟩ : Node) :: l₂ else l₂) := by
  cases hfa : fitAlloc st.m_freelist s with
  | none =>
    obtain ⟨m, hm, hms⟩ := hfit
    have := fitAlloc_none_iff.1 hfa m hm
    omega
  | some r =>
    obtain ⟨a, fl'⟩ := r
    obtain ⟨l₁, n, l₂, hfl, hl₁, hns, hab, hflx⟩ := fitAlloc_split hfa
    subst hab
    have halloc := alloc_eq_of_fit hfa
    have hch := hchain
    rw [hfl] at hch
    have hmid := chain'_middle (r := Rgap) hch
    refine ⟨n, l₁, l₂, hfl, hns, ?_, ?_, ?_, ?_⟩
    · intro m hm hms
      rw [hfl] at hm
      rcases List.mem_append.1 hm with h1 | h2
      · exact absurd hms (by have := hl₁ m h1; omega)
      · rcases List.mem_cons.1 h2 with rfl | h2'
        · exact Nat.le_refl _
        · have := hmid.2 m h2'
          unfold Rgap at this
          omega
    · rw [halloc]
    · rw [halloc]
    · rw [halloc]
      show fl' = _
      rw [hflx]
      by_cases hsp : s < n.size
      · rw [if_pos hsp, if_pos hsp]
        congr 1
        have h2 : ∀ m ∈ l₂, (⟨n.block + s, n.size - s⟩ : Node).block < m.block := by
          intro m hm
          have := hmid.2 m hm
          unfold Rgap at this
          show n.block + s < m.block
          omega
        exact insertNL_front h2
      · rw [if_neg hsp, if_neg hsp]

/-- Witness for C4: with free ranges of sizes 10, 50 and 20 in address
order, a request of 15 bytes selects the 50-byte range at address 100,
not the 20-byte range. -/
theorem alloc_first_fit_witness :
    ∃ sel l₁ l₂,
      (⟨[], [⟨0, 10⟩, ⟨100, 50⟩, ⟨200, 20⟩], [], 1000, 0, 300⟩ :
        CArena).m_freelist = l₁ ++ sel :: l₂ ∧ 15 ≤ sel.size ∧
      (∀ m ∈ (⟨[], [⟨0, 10⟩, ⟨100, 50⟩, ⟨200, 20⟩], [], 1000, 0, 300⟩ :
        CArena).m_freelist, 15 ≤ m.size → sel.block ≤ m.block) ∧
      ((⟨[], [⟨0, 10⟩, ⟨100, 50⟩, ⟨200, 20⟩], [], 1000, 0, 300⟩ :
        CArena).alloc 15).2 = sel.block ∧
      ((⟨[], [⟨0, 10⟩, ⟨100, 50⟩, ⟨200, 20⟩], [], 1000, 0, 300⟩ :
        CArena).alloc 15).1.m_busylist =
        insertNL (⟨[], [⟨0, 10⟩, ⟨100, 50⟩, ⟨200, 20⟩], [], 1000, 0, 300⟩ :
          CArena).m_busylist ⟨sel.block, 15⟩ ∧
      ((⟨[], [⟨0, 10⟩, ⟨100, 50⟩, ⟨200, 20⟩], [], 1000, 0, 300⟩ :
        CArena).alloc 15).1.m_freelist =
        l₁ ++ (if 15 < sel.size
               then (⟨sel.block + 15, sel.size - 15⟩ : Node) :: l₂ else l₂) :=
  alloc_first_fit _ 15
    (List.chain'_cons.2 ⟨by decide,
      List.chain'_cons.2 ⟨by decide, List.chain'_singleton _⟩⟩)
    (by decide) (by decide)

theorem fitAlloc_append_skip {l₁ l₂ : List Node} {nb : Nat}
    (h : ∀ m ∈ l₁, m.size < nb) :
    fitAlloc (l₁ ++ l₂) nb =
      match fitAlloc l₂ nb with
      | none => none
      | some (a, l') => some (a, l₁ ++ l') := by
  induction l₁ with
  | nil =>
    cases hres : fitAlloc l₂ nb with
    | none => simp only [List.nil_append, hres]
    | some r =>
      obtain ⟨a, l'⟩ := r
      simp only [List.nil_append, hres]
  | cons m rest ih =>
    have hm := h m (List.mem_cons_self _ _)
    show fitAlloc (m :: (rest ++ l₂)) nb = _
    rw [fitAlloc_cons, if_neg (by omega),
      ih (fun k hk => h k (List.mem_cons_of_mem _ hk))]
    cases hres : fitAlloc l₂ nb with
    | none => simp only
    | some r =>
      obtain ⟨a, l'⟩ := r
      simp only
      rfl

/-- C8: when no free element satisfies the request, `alloc` performs
exactly one platform acquisition of size `max s m_hunk`, appends it to
the hunk registry, adds its full extent to the free set as one new
range; `heap_space_used` grows by exactly the acquired size and the
retried allocation succeeds at the new hunk's start address. -/
theorem alloc_growth (st : CArena) (s : Nat) (hs : 0 < s)
    (hnofit : ∀ m ∈ st.m_freelist, m.size < s)
    (hbound : ∀ m ∈ st.m_freelist, m.block + m.size < st.next) :
    insertNL st.m_freelist ⟨st.next, max s st.m_hunk⟩ =
      st.m_freelist ++ [⟨st.next, max s st.m_hunk⟩] ∧
    (st.alloc s).1.m_alloc = st.m_alloc ++ [⟨st.next, max s st.m_hunk⟩] ∧
    (st.alloc s).1.heap_space_used =
      st.heap_space_used + max s st.m_hunk ∧
    (st.alloc s).2 = st.next ∧
    (st.alloc s).1.m_busylist = insertNL st.m_busylist ⟨st.next, s⟩ ∧
    (st.alloc s).1.m_freelist = st.m_freelist ++
      (if s < max s st.m_hunk
       then [(⟨st.next + s, max s st.m_hunk - s⟩ : Node)] else []) := by
  have hfold : insertNL st.m_freelist ⟨st.next, max s st.m_hunk⟩ =
      st.m_freelist ++ [⟨st.next, max s st.m_hunk⟩] :=
    insertNL_append_last (fun m hm => by
      have := hbound m hm
      show m.block < st.next
      omega)
  have hfa : fitAlloc st.m_freelist s = none := fitAlloc_none_iff.2 hnofit
  have hsing : fitAlloc [(⟨st.next, max s st.m_hunk⟩ : Node)] s =
      some (st.next, if s < max s st.m_hunk
        then [(⟨st.next + s, max s st.m_hunk - s⟩ : Node)] else []) := by
    rw [fitAlloc_cons, if_pos (le_max_left _ _)]
    by_cases hc : s < max s st.m_hunk
    · rw [if_pos hc, if_pos hc]
      rfl
    · rw [if_neg hc, if_neg hc]
  have hfit2 : fitAlloc (insertNL st.m_freelist ⟨st.next, max s st.m_hunk⟩)
      s = some (st.next, st.m_freelist ++
        (if s < max s st.m_hunk
         then [(⟨st.next + s, max s st.m_hunk - s⟩ : Node)] else [])) := by
    rw [hfold, fitAlloc_append_skip hnofit, hsing]
  have halloc : st.alloc s =
      ({ st with
          m_alloc := st.m_alloc ++ [⟨st.next, max s st.m_hunk⟩]
          m_freelist := st.m_freelist ++
            (if s < max s st.m_hunk
             then [(⟨st.next + s, max s st.m_hunk - s⟩ : Node)] else [])
          m_busylist := insertNL st.m_busylist ⟨st.next, s⟩
          m_used := st.m_used + max s st.m_hunk
          next := st.next + max s st.m_hunk + 1 }, st.next) := by
    unfold CArena.alloc
    simp only [hfa, hfit2]
  refine ⟨hfold, ?_, ?_, ?_, ?_, ?_⟩ <;> rw [halloc] <;> rfl

/-- Witness for C8: a fresh arena with quantum 10 and a request of 25
acquires one hunk of size 25. -/
theorem alloc_growth_witness :
    insertNL (mkCArena 10 0).m_freelist ⟨(mkCArena 10 0).next,
      max 25 (mkCArena 10 0).m_hunk⟩ =
      (mkCArena 10 0).m_freelist ++
        [⟨(mkCArena 10 0).next, max 25 (mkCArena 10 0).m_hunk⟩] ∧
    ((mkCArena 10 0).alloc 25).1.m_alloc = (mkCArena 10 0).m_alloc ++
      [⟨(mkCArena 10 0).next, max 25 (mkCArena 10 0).m_hunk⟩] ∧
    ((mkCArena 10 0).alloc 25).1.heap_space_used =
      (mkCArena 10 0).heap_space_used + max 25 (mkCArena 10 0).m_hunk ∧
    ((mkCArena 10 0).alloc 25).2 = (mkCArena 10 0).next ∧
    ((mkCArena 10 0).alloc 25).1.m_busylist =
      insertNL (mkCArena 10 0).m_busylist ⟨(mkCArena 10 0).next, 25⟩ ∧
    ((mkCArena 10 0).alloc 25).1.m_freelist = (mkCArena 10 0).m_freelist ++
      (if 25 < max 25 (mkCArena 10 0).m_hunk
       then [(⟨(mkCArena 10 0).next + 25,
          max 25 (mkCArena 10 0).m_hunk - 25⟩ : Node)] else []) :=
  alloc_growth (mkCArena 10 0) 25 (by decide) (by decide) (by decide)

end CArenaModel

namespace CArenaModel

theorem lookupBlk_insertNL_self {l : List Node} {n : Node}
    (h : ∀ m ∈ l, m.block ≠ n.block) :
    lookupBlk (insertNL l n) n.block = some n := by
  induction l with
  | nil => simp [insertNL, lookupBlk]
  | cons m rest ih =>
    have hm := h m (List.mem_cons_self _ _)
    rw [insertNL_cons]
    rcases Nat.lt_trichotomy n.block m.block with h1 | h1 | h1
    · rw [if_pos h1, lookupBlk_cons, if_pos rfl]
    · exact absurd h1.symm hm
    · rw [if_neg (by omega), if_pos h1, lookupBlk_cons, if_neg hm]
      exact ih (fun k hk => h k (List.mem_cons_of_mem _ hk))

theorem eraseBlk_insertNL_self {l : List Node} {n : Node}
    (h : ∀ m ∈ l, m.block ≠ n.block) :
    eraseBlk (insertNL l n) n.block = l := by
  induction l with
  | nil => simp [insertNL, eraseBlk]
  | cons m rest ih =>
    have hm := h m (List.mem_cons_self _ _)
    rw [insertNL_cons]
    rcases Nat.lt_trichotomy n.block m.block with h1 | h1 | h1
    · rw [if_pos h1, eraseBlk_cons, if_pos rfl]
    · exact absurd h1.symm hm
    · rw [if_neg (by omega), if_pos h1, eraseBlk_cons, if_neg hm,
        ih (fun k hk => h k (List.mem_cons_of_mem _ hk))]

theorem free_eq_predmerge {st : CArena} {a : Nat} {n p : Node}
    (hl : lookupBlk st.m_busylist a = some n)
    (hp : predOf st.m_freelist a = some p)
    (hm : p.block + p.size = n.block) :
    st.free a = some (freeFinish st a p.block (p.size + n.size)
      (eraseBlk st.m_freelist p.block)) := by
  unfold CArena.free
  simp only [hl, hp, if_pos hm]

theorem free_eq_nomerge {st : CArena} {a : Nat} {n p : Node}
    (hl : lookupBlk st.m_busylist a = some n)
    (hp : predOf st.m_freelist a = some p)
    (hm : ¬ p.block + p.size = n.block) :
    st.free a = some (freeFinish st a n.block n.size st.m_freelist) := by
  unfold CArena.free
  simp only [hl, hp, if_neg hm]

theorem free_eq_nopred {st : CArena} {a : Nat} {n : Node}
    (hl : lookupBlk st.m_busylist a = some n)
    (hp : predOf st.m_freelist a = none) :
    st.free a = some (freeFinish st a n.block n.size st.m_freelist) := by
  unfold CArena.free
  simp only [hl, hp]

/-- Counterexample to C6 as stated: from a fresh arena (quantum 10),
allocating 5 bytes triggers a hunk acquisition, and releasing the
returned address leaves 10 free bytes where there were 0 before — the
free set is not restored to its pre-allocation state. -/
theorem roundtrip_growth_cex :
    CArena.free ((mkCArena 10 0).alloc 5).1 ((mkCArena 10 0).alloc 5).2 =
      some ⟨[⟨0, 10⟩], [⟨0, 10⟩], [], 10, 10, 11⟩ ∧
    ¬ ((([⟨0, 10⟩] : List Node).map Node.size).sum =
        (((mkCArena 10 0).m_freelist).map Node.size).sum) := by
  decide


/-- C6 (amended): in any reachable state, when the request can be
satisfied from the existing free set, allocating `N > 0` bytes and then
immediately releasing the returned address restores the entire arena
state — in particular the free set — exactly. -/
theorem roundtrip_exact (st : CArena) (hR : Reach st) (N : Nat) (hN : 0 < N)
    (hfit : ∃ m ∈ st.m_freelist, N ≤ m.size) :
    ((st.alloc N).1).free ((st.alloc N).2) = some st := by
  have hI := Inv.of_reach hR
  cases hfa : fitAlloc st.m_freelist N with
  | none =>
    obtain ⟨m, hm, hms⟩ := hfit
    have := fitAlloc_none_iff.1 hfa m hm
    omega
  | some r =>
    obtain ⟨a, fl'⟩ := r
    obtain ⟨l₁, n, l₂, hfl, hl₁, hns, hab, hflx⟩ := fitAlloc_split hfa
    subst hab
    rw [alloc_eq_of_fit hfa]
    show CArena.free
      { st with m_freelist := fl',
                m_busylist := insertNL st.m_busylist ⟨n.block, N⟩ } n.block
      = some st
    set S : CArena :=
      { st with m_freelist := fl',
                m_busylist := insertNL st.m_busylist ⟨n.block, N⟩ } with hS
    have hnmem : n ∈ st.m_freelist := by
      rw [hfl]; exact List.mem_append.2 (Or.inr (List.mem_cons_self _ _))
    have hnpos : 0 < n.size := hI.fpos n hnmem
    have hbfresh : ∀ m ∈ st.m_busylist, m.block ≠ n.block := by
      intro m hm heq
      have hmp := hI.bpos m hm
      exact hI.crossdisj n.block
        ⟨⟨n, hnmem, by simp only [inRange_def]; omega⟩,
         ⟨m, hm, by simp only [inRange_def]; omega⟩⟩
    have hlook : lookupBlk S.m_busylist n.block = some ⟨n.block, N⟩ :=
      lookupBlk_insertNL_self (fun m hm => hbfresh m hm)
    have hberase : eraseBlk S.m_busylist n.block = st.m_busylist :=
      eraseBlk_insertNL_self (fun m hm => hbfresh m hm)
    have hch := hI.fchain
    rw [hfl] at hch
    have hmid := chain'_middle (r := Rgap) hch
    have hl₁blk : ∀ m ∈ l₁, m.block < n.block := by
      intro m hm
      have := hmid.1 m hm
      unfold Rgap at this
      omega
    have hl₂blk : ∀ m ∈ l₂, n.block + n.size < m.block :=
      fun m hm => hmid.2 m hm
    by_cases hsp : N < n.size
    · -- the allocation split the block: the remainder merges back
      have hins0 : insertNL l₂ ⟨n.block + N, n.size - N⟩ =
          (⟨n.block + N, n.size - N⟩ : Node) :: l₂ :=
        insertNL_front (fun m hm => by
          have := hl₂blk m hm
          show n.block + N < m.block
          omega)
      have hfl' : fl' = l₁ ++ (⟨n.block + N, n.size - N⟩ : Node) :: l₂ := by
        rw [hflx, if_pos hsp, hins0]
      have hfrS : S.m_freelist = l₁ ++
          (⟨n.block + N, n.size - N⟩ : Node) :: l₂ := hfl'
      have hpred : predOf S.m_freelist n.block = l₁.getLast? := by
        rw [hfrS]
        refine predOf_append hl₁blk ?_
        intro m hm
        rcases List.mem_cons.1 hm with rfl | hm'
        · show ¬ n.block + N < n.block
          omega
        · have := hl₂blk m hm'
          omega
      have hfree : CArena.free S n.block =
          some (freeFinish S n.block n.block N fl') := by
        cases hgl : l₁.getLast? with
        | none =>
          have hpnone : predOf S.m_freelist n.block = none := by
            rw [hpred, hgl]
          exact free_eq_nopred hlook hpnone
        | some p =>
          have hpsome : predOf S.m_freelist n.block = some p := by
            rw [hpred, hgl]
          have hpm : p ∈ l₁ := List.mem_of_getLast?_eq_some hgl
          have hpr := hmid.1 p hpm
          unfold Rgap at hpr
          exact free_eq_nomerge hlook hpsome
            (by show ¬ p.block + p.size = n.block; omega)
      rw [hfree]
      have hsucc : succOf fl' n.block = some ⟨n.block + N, n.size - N⟩ := by
        rw [hfl']
        rw [succOf_append (fun m hm => by
          have := hl₁blk m hm
          omega)]
        exact succOf_cons_pos (by show n.block < n.block + N; omega)
      rw [freeFinish_eq_merge hsucc rfl]
      have herase2 : eraseBlk fl'
          (⟨n.block + N, n.size - N⟩ : Node).block = l₁ ++ l₂ := by
        rw [hfl']
        rw [eraseBlk_append_left (fun m hm => by
          have := hl₁blk m hm
          show m.block ≠ n.block + N
          omega)]
        rw [eraseBlk_cons_self rfl]
      have hsz2 : N + (⟨n.block + N, n.size - N⟩ : Node).size = n.size := by
        show N + (n.size - N) = n.size
        omega
      rw [herase2, hsz2]
      have hins2 : insertNL (l₁ ++ l₂) ⟨n.block, n.size⟩ = l₁ ++ n :: l₂ :=
        insertNL_middle (fun m hm => hl₁blk m hm) (fun m hm => by
          have := hl₂blk m hm
          show n.block < m.block
          omega)
      rw [hins2, hberase, ← hfl]
    · -- the block was moved whole: it is reinserted unchanged
      have hNs : N = n.size := by omega
      have hfl2 : fl' = l₁ ++ l₂ := by rw [hflx, if_neg hsp]
      have hfrS : S.m_freelist = l₁ ++ l₂ := hfl2
      have hpred : predOf S.m_freelist n.block = l₁.getLast? := by
        rw [hfrS]
        refine predOf_append hl₁blk ?_
        intro m hm
        have := hl₂blk m hm
        omega
      have hfree : CArena.free S n.block =
          some (freeFinish S n.block n.block N fl') := by
        cases hgl : l₁.getLast? with
        | none =>
          have hpnone : predOf S.m_freelist n.block = none := by
            rw [hpred, hgl]
          exact free_eq_nopred hlook hpnone
        | some p =>
          have hpsome : predOf S.m_freelist n.block = some p := by
            rw [hpred, hgl]
          have hpm : p ∈ l₁ := List.mem_of_getLast?_eq_some hgl
          have hpr := hmid.1 p hpm
          unfold Rgap at hpr
          exact free_eq_nomerge hlook hpsome
            (by show ¬ p.block + p.size = n.block; omega)
      rw [hfree]
      cases hl₂c : l₂ with
      | nil =>
        have hsucc : succOf fl' n.block = none := by
          rw [hfl2, hl₂c]
          rw [succOf_append (fun m hm => by
            have := hl₁blk m hm
            omega)]
          rfl
        rw [freeFinish_eq_none hsucc]
        have hins : insertNL fl' ⟨n.block, N⟩ =
            l₁ ++ [(⟨n.block, N⟩ : Node)] := by
          rw [hfl2, hl₂c, List.append_nil]
          exact insertNL_append_last (fun m hm => hl₁blk m hm)
        rw [hins, hberase]
        have hnn : (⟨n.block, N⟩ : Node) = n := by rw [hNs]
        rw [hl₂c] at hfl
        rw [hnn, ← hfl]
      | cons q l₂' =>
        have hsucc : succOf fl' n.block = some q := by
          rw [hfl2, hl₂c]
          rw [succOf_append (fun m hm => by
            have := hl₁blk m hm
            omega)]
          refine succOf_cons_pos ?_
          have := hl₂blk q (by rw [hl₂c]; exact List.mem_cons_self _ _)
          omega
        have hqne : ¬ q.block = n.block + N := by
          have := hl₂blk q (by rw [hl₂c]; exact List.mem_cons_self _ _)
          omega
        rw [freeFinish_eq_nomerge hsucc hqne]
        have hins : insertNL fl' ⟨n.block, N⟩ =
            l₁ ++ (⟨n.block, N⟩ : Node) :: l₂ := by
          rw [hfl2]
          refine insertNL_middle (fun m hm => hl₁blk m hm) ?_
          intro m hm
          have := hl₂blk m hm
          show n.block < m.block
          omega
        rw [hins, hberase]
        have hnn : (⟨n.block, N⟩ : Node) = n := by rw [hNs]
        rw [hnn, ← hfl]

/-- Witness for amended C6: after one allocation from a fresh arena, the
free set holds one 5-byte range; allocating those 5 bytes and releasing
the returned address restores the state exactly. -/
theorem roundtrip_exact_witness :
    ((((mkCArena 10 0).alloc 5).1.alloc 5).1).free
      ((((mkCArena 10 0).alloc 5).1).alloc 5).2 =
      some ((mkCArena 10 0).alloc 5).1 :=
  roundtrip_exact _ (Reach.alloc _ 5 (Reach.init 10 0) (by decide)) 5
    (by decide) (by decide)

end CArenaModel

namespace CArenaModel

theorem arith_facts (o s : Nat) (hs : 0 < s) :
    o < o + s ∧ o < o + 2*s ∧ o + s < o + 2*s ∧
    ¬(o + s < o) ∧ ¬(o + 2*s < o) ∧ ¬(o + 2*s < o + s) ∧
    ¬(o = o + s) ∧ ¬(o + s = o) ∧ ¬(o = o + 2*s) ∧ ¬(o + 2*s = o) ∧
    ¬(o + s = o + 2*s) ∧ ¬(o + 2*s = o + s) ∧
    o + s + s = o + 2*s ∧ s + s = 2*s ∧ 2*s + s = 3*s ∧ s + 2*s = 3*s := by
  omega

theorem alloc_step1 (o s : Nat) (hs : 0 < s) :
    (mkCArena (3*s) o).alloc s =
      (⟨[⟨o, 3*s⟩], [⟨o+s, 2*s⟩], [⟨o, s⟩], 3*s, 3*s, o+3*s+1⟩, o) := by
  have hmk : mkCArena (3*s) o = ⟨[], [], [], 3*s, 0, o⟩ := by
    unfold mkCArena
    rw [if_neg (by omega)]
  have hmax : max s (3*s) = 3*s := Nat.max_eq_right (by omega)
  have hle : s ≤ 3*s := by omega
  have hlt : s < 3*s := by omega
  have hsub : 3*s - s = 2*s := by omega
  rw [hmk]
  unfold CArena.alloc
  simp [fitAlloc, insertNL, hmax, hle, hlt, hsub]

theorem alloc_step2 (o s : Nat) (hs : 0 < s) :
    (⟨[⟨o, 3*s⟩], [⟨o+s, 2*s⟩], [⟨o, s⟩], 3*s, 3*s, o+3*s+1⟩ :
      CArena).alloc s =
      (⟨[⟨o, 3*s⟩], [⟨o+2*s, s⟩], [⟨o, s⟩, ⟨o+s, s⟩], 3*s, 3*s, o+3*s+1⟩,
       o + s) := by
  obtain ⟨ha, hb, hc, hna, hnb, hnc, h1, h2, h3, h4, h5, h6, f1, g1, g2, g3⟩ :=
    arith_facts o s hs
  have hle : s ≤ 2*s := by omega
  have hlt : s < 2*s := by omega
  have hsub : 2*s - s = s := by omega
  unfold CArena.alloc
  simp [fitAlloc, insertNL, hle, hlt, hsub,
    ha, hb, hc, hna, hnb, hnc, h1, h2, h3, h4, h5, h6, f1, g1, g2, g3]

theorem alloc_step3 (o s : Nat) (hs : 0 < s) :
    (⟨[⟨o, 3*s⟩], [⟨o+2*s, s⟩], [⟨o, s⟩, ⟨o+s, s⟩], 3*s, 3*s, o+3*s+1⟩ :
      CArena).alloc s =
      (⟨[⟨o, 3*s⟩], [], [⟨o, s⟩, ⟨o+s, s⟩, ⟨o+2*s, s⟩], 3*s, 3*s, o+3*s+1⟩,
       o + 2*s) := by
  obtain ⟨ha, hb, hc, hna, hnb, hnc, h1, h2, h3, h4, h5, h6, f1, g1, g2, g3⟩ :=
    arith_facts o s hs
  unfold CArena.alloc
  simp [fitAlloc, insertNL,
    ha, hb, hc, hna, hnb, hnc, h1, h2, h3, h4, h5, h6, f1, g1, g2, g3]

theorem free3_A (o s : Nat) (hs : 0 < s) :
    (⟨[⟨o,3*s⟩], [], [⟨o,s⟩,⟨o+s,s⟩,⟨o+2*s,s⟩], 3*s, 3*s, o+3*s+1⟩ :
      CArena).free o =
      some ⟨[⟨o,3*s⟩], [⟨o,s⟩], [⟨o+s,s⟩,⟨o+2*s,s⟩], 3*s, 3*s, o+3*s+1⟩ := by
  obtain ⟨ha, hb, hc, hna, hnb, hnc, h1, h2, h3, h4, h5, h6, f1, g1, g2, g3⟩ :=
    arith_facts o s hs
  simp [CArena.free, freeFinish, lookupBlk, predOf, succOf, eraseBlk, insertNL,
    ha, hb, hc, hna, hnb, hnc, h1, h2, h3, h4, h5, h6, f1, g1, g2, g3]

theorem free3_B (o s : Nat) (hs : 0 < s) :
    (⟨[⟨o,3*s⟩], [], [⟨o,s⟩,⟨o+s,s⟩,⟨o+2*s,s⟩], 3*s, 3*s, o+3*s+1⟩ :
      CArena).free (o+s) =
      some ⟨[⟨o,3*s⟩], [⟨o+s,s⟩], [⟨o,s⟩,⟨o+2*s,s⟩], 3*s, 3*s, o+3*s+1⟩ := by
  obtain ⟨ha, hb, hc, hna, hnb, hnc, h1, h2, h3, h4, h5, h6, f1, g1, g2, g3⟩ :=
    arith_facts o s hs
  simp [CArena.free, freeFinish, lookupBlk, predOf, succOf, eraseBlk, insertNL,
    ha, hb, hc, hna, hnb, hnc, h1, h2, h3, h4, h5, h6, f1, g1, g2, g3]

theorem free3_C (o s : Nat) (hs : 0 < s) :
    (⟨[⟨o,3*s⟩], [], [⟨o,s⟩,⟨o+s,s⟩,⟨o+2*s,s⟩], 3*s, 3*s, o+3*s+1⟩ :
      CArena).free (o+2*s) =
      some ⟨[⟨o,3*s⟩], [⟨o+2*s,s⟩], [⟨o,s⟩,⟨o+s,s⟩], 3*s, 3*s, o+3*s+1⟩ := by
  obtain ⟨ha, hb, hc, hna, hnb, hnc, h1, h2, h3, h4, h5, h6, f1, g1, g2, g3⟩ :=
    arith_facts o s hs
  simp [CArena.free, freeFinish, lookupBlk, predOf, succOf, eraseBlk, insertNL,
    ha, hb, hc, hna, hnb, hnc, h1, h2, h3, h4, h5, h6, f1, g1, g2, g3]

theorem freeA_B (o s : Nat) (hs : 0 < s) :
    (⟨[⟨o,3*s⟩], [⟨o,s⟩], [⟨o+s,s⟩,⟨o+2*s,s⟩], 3*s, 3*s, o+3*s+1⟩ :
      CArena).free (o+s) =
      some ⟨[⟨o,3*s⟩], [⟨o,2*s⟩], [⟨o+2*s,s⟩], 3*s, 3*s, o+3*s+1⟩ := by
  obtain ⟨ha, hb, hc, hna, hnb, hnc, h1, h2, h3, h4, h5, h6, f1, g1, g2, g3⟩ :=
    arith_facts o s hs
  simp [CArena.free, freeFinish, lookupBlk, predOf, succOf, eraseBlk, insertNL,
    ha, hb, hc, hna, hnb, hnc, h1, h2, h3, h4, h5, h6, f1, g1, g2, g3]

theorem freeA_C (o s : Nat) (hs : 0 < s) :
    (⟨[⟨o,3*s⟩], [⟨o,s⟩], [⟨o+s,s⟩,⟨o+2*s,s⟩], 3*s, 3*s, o+3*s+1⟩ :
      CArena).free (o+2*s) =
      some ⟨[⟨o,3*s⟩], [⟨o,s⟩,⟨o+2*s,s⟩], [⟨o+s,s⟩], 3*s, 3*s, o+3*s+1⟩ := by
  obtain ⟨ha, hb, hc, hna, hnb, hnc, h1, h2, h3, h4, h5, h6, f1, g1, g2, g3⟩ :=
    arith_facts o s hs
  simp [CArena.free, freeFinish, lookupBlk, predOf, succOf, eraseBlk, insertNL,
    ha, hb, hc, hna, hnb, hnc, h1, h2, h3, h4, h5, h6, f1, g1, g2, g3]

theorem freeB_A (o s : Nat) (hs : 0 < s) :
    (⟨[⟨o,3*s⟩], [⟨o+s,s⟩], [⟨o,s⟩,⟨o+2*s,s⟩], 3*s, 3*s, o+3*s+1⟩ :
      CArena).free o =
      some ⟨[⟨o,3*s⟩], [⟨o,2*s⟩], [⟨o+2*s,s⟩], 3*s, 3*s, o+3*s+1⟩ := by
  obtain ⟨ha, hb, hc, hna, hnb, hnc, h1, h2, h3, h4, h5, h6, f1, g1, g2, g3⟩ :=
    arith_facts o s hs
  simp [CArena.free, freeFinish, lookupBlk, predOf, succOf, eraseBlk, insertNL,
    ha, hb, hc, hna, hnb, hnc, h1, h2, h3, h4, h5, h6, f1, g1, g2, g3]

theorem freeB_C (o s : Nat) (hs : 0 < s) :
    (⟨[⟨o,3*s⟩], [⟨o+s,s⟩], [⟨o,s⟩,⟨o+2*s,s⟩], 3*s, 3*s, o+3*s+1⟩ :
      CArena).free (o+2*s) =
      some ⟨[⟨o,3*s⟩], [⟨o+s,2*s⟩], [⟨o,s⟩], 3*s, 3*s, o+3*s+1⟩ := by
  obtain ⟨ha, hb, hc, hna, hnb, hnc, h1, h2, h3, h4, h5, h6, f1, g1, g2, g3⟩ :=
    arith_facts o s hs
  simp [CArena.free, freeFinish, lookupBlk, predOf, succOf, eraseBlk, insertNL,
    ha, hb, hc, hna, hnb, hnc, h1, h2, h3, h4, h5, h6, f1, g1, g2, g3]

theorem freeC_A (o s : Nat) (hs : 0 < s) :
    (⟨[⟨o,3*s⟩], [⟨o+2*s,s⟩], [⟨o,s⟩,⟨o+s,s⟩], 3*s, 3*s, o+3*s+1⟩ :
      CArena).free o =
      some ⟨[⟨o,3*s⟩], [⟨o,s⟩,⟨o+2*s,s⟩], [⟨o+s,s⟩], 3*s, 3*s, o+3*s+1⟩ := by
  obtain ⟨ha, hb, hc, hna, hnb, hnc, h1, h2, h3, h4, h5, h6, f1, g1, g2, g3⟩ :=
    arith_facts o s hs
  simp [CArena.free, freeFinish, lookupBlk, predOf, succOf, eraseBlk, insertNL,
    ha, hb, hc, hna, hnb, hnc, h1, h2, h3, h4, h5, h6, f1, g1, g2, g3]

theorem freeC_B (o s : Nat) (hs : 0 < s) :
    (⟨[⟨o,3*s⟩], [⟨o+2*s,s⟩], [⟨o,s⟩,⟨o+s,s⟩], 3*s, 3*s, o+3*s+1⟩ :
      CArena).free (o+s) =
      some ⟨[⟨o,3*s⟩], [⟨o+s,2*s⟩], [⟨o,s⟩], 3*s, 3*s, o+3*s+1⟩ := by
  obtain ⟨ha, hb, hc, hna, hnb, hnc, h1, h2, h3, h4, h5, h6, f1, g1, g2, g3⟩ :=
    arith_facts o s hs
  simp [CArena.free, freeFinish, lookupBlk, predOf, succOf, eraseBlk, insertNL,
    ha, hb, hc, hna, hnb, hnc, h1, h2, h3, h4, h5, h6, f1, g1, g2, g3]

theorem freeAB_C (o s : Nat) (hs : 0 < s) :
    (⟨[⟨o,3*s⟩], [⟨o,2*s⟩], [⟨o+2*s,s⟩], 3*s, 3*s, o+3*s+1⟩ :
      CArena).free (o+2*s) =
      some ⟨[⟨o,3*s⟩], [⟨o,3*s⟩], [], 3*s, 3*s, o+3*s+1⟩ := by
  obtain ⟨ha, hb, hc, hna, hnb, hnc, h1, h2, h3, h4, h5, h6, f1, g1, g2, g3⟩ :=
    arith_facts o s hs
  simp [CArena.free, freeFinish, lookupBlk, predOf, succOf, eraseBlk, insertNL,
    ha, hb, hc, hna, hnb, hnc, h1, h2, h3, h4, h5, h6, f1, g1, g2, g3]

theorem freeAC_B (o s : Nat) (hs : 0 < s) :
    (⟨[⟨o,3*s⟩], [⟨o,s⟩,⟨o+2*s,s⟩], [⟨o+s,s⟩], 3*s, 3*s, o+3*s+1⟩ :
      CArena).free (o+s) =
      some ⟨[⟨o,3*s⟩], [⟨o,3*s⟩], [], 3*s, 3*s, o+3*s+1⟩ := by
  obtain ⟨ha, hb, hc, hna, hnb, hnc, h1, h2, h3, h4, h5, h6, f1, g1, g2, g3⟩ :=
    arith_facts o s hs
  simp [CArena.free, freeFinish, lookupBlk, predOf, succOf, eraseBlk, insertNL,
    ha, hb, hc, hna, hnb, hnc, h1, h2, h3, h4, h5, h6, f1, g1, g2, g3]

theorem freeBC_A (o s : Nat) (hs : 0 < s) :
    (⟨[⟨o,3*s⟩], [⟨o+s,2*s⟩], [⟨o,s⟩], 3*s, 3*s, o+3*s+1⟩ :
      CArena).free o =
      some ⟨[⟨o,3*s⟩], [⟨o,3*s⟩], [], 3*s, 3*s, o+3*s+1⟩ := by
  obtain ⟨ha, hb, hc, hna, hnb, hnc, h1, h2, h3, h4, h5, h6, f1, g1, g2, g3⟩ :=
    arith_facts o s hs
  simp [CArena.free, freeFinish, lookupBlk, predOf, succOf, eraseBlk, insertNL,
    ha, hb, hc, hna, hnb, hnc, h1, h2, h3, h4, h5, h6, f1, g1, g2, g3]

/-- C1: three adjacent equal-size blocks A, B, C handed out back-to-back
from one exactly-sized hunk are returned at addresses `o`, `o+s`,
`o+2*s`; releasing them in any of the six orders leaves the free set
holding exactly one range spanning their union `[o, o+3*s)` and an empty
busy set. -/
theorem coalescing_all_orders (o s : Nat) (hs : 0 < s) :
    ((mkCArena (3*s) o).alloc s).2 = o ∧
    (((mkCArena (3*s) o).alloc s).1.alloc s).2 = o + s ∧
    ((((mkCArena (3*s) o).alloc s).1.alloc s).1.alloc s).2 = o + 2*s ∧
    ∀ x y z : Nat,
      ((x, y, z) = (o, o + s, o + 2*s) ∨ (x, y, z) = (o, o + 2*s, o + s) ∨
       (x, y, z) = (o + s, o, o + 2*s) ∨ (x, y, z) = (o + s, o + 2*s, o) ∨
       (x, y, z) = (o + 2*s, o, o + s) ∨ (x, y, z) = (o + 2*s, o + s, o)) →
      ∃ stf : CArena,
        (((((((mkCArena (3*s) o).alloc s).1.alloc s).1.alloc s).1.free x).bind
            (fun t => t.free y)).bind (fun t => t.free z)) = some stf ∧
        stf.m_freelist = [⟨o, 3*s⟩] ∧ stf.m_busylist = [] := by
  have ha1 := alloc_step1 o s hs
  have ha2 := alloc_step2 o s hs
  have ha3 := alloc_step3 o s hs
  refine ⟨by simp [ha1], by simp [ha1, ha2], by simp [ha1, ha2, ha3], ?_⟩
  intro x y z h
  have hst3 : ((((mkCArena (3*s) o).alloc s).1.alloc s).1.alloc s).1 =
      (⟨[⟨o,3*s⟩], [], [⟨o,s⟩,⟨o+s,s⟩,⟨o+2*s,s⟩], 3*s, 3*s, o+3*s+1⟩ :
        CArena) := by
    simp [ha1, ha2, ha3]
  rw [hst3]
  rcases h with h | h | h | h | h | h <;>
      (simp only [Prod.mk.injEq] at h
       obtain ⟨h1, h2, h3⟩ := h
       rw [h1, h2, h3]) <;>
    exact ⟨⟨[⟨o,3*s⟩], [⟨o,3*s⟩], [], 3*s, 3*s, o+3*s+1⟩, by
      simp [free3_A o s hs, free3_B o s hs, free3_C o s hs,
        freeA_B o s hs, freeA_C o s hs, freeB_A o s hs, freeB_C o s hs,
        freeC_A o s hs, freeC_B o s hs, freeAB_C o s hs, freeAC_B o s hs,
        freeBC_A o s hs], rfl, rfl⟩

/-- Witness for C1 at `o = 100`, `s = 7`, releasing in the order
B (107), C (114), A (100). -/
theorem coalescing_all_orders_witness :
    ∃ stf : CArena,
      (((((((mkCArena (3*7) 100).alloc 7).1.alloc 7).1.alloc 7).1.free
          107).bind (fun t => t.free 114)).bind (fun t => t.free 100)) =
        some stf ∧
      stf.m_freelist = [⟨100, 3*7⟩] ∧ stf.m_busylist = [] :=
  (coalescing_all_orders 100 7 (by decide)).2.2.2 107 114 100 (by decide)

end CArenaModel
